import Mathlib

namespace NpmCheck

/-!
Verification of the detection engine of the `check-compromised-npm-packages`
repository (files `check-compromised.js` and `lib/core.js`).

The JavaScript code is shallowly embedded:
* a JS `Map` (insertion-ordered, unique keys) is a `List (key × value)`;
* a JS `Set` of strings (insertion-ordered, unique members) is a `List String`
  into which `setAdd` inserts exactly as `Set.prototype.add` does;
* JS version values (strings or numbers, per the data format) are `JVal`;
  a number is carried by its canonical JS string representation, so that the
  JS coercion `String(x)` is `JVal.toStr`;
* fallible JS code (thrown `TypeError`s) returns `Except Unit`;
* the heap of `Set` objects, where mutation matters (the merge step of
  `main`), is an explicit store `Heap` addressed by `Nat` references.
-/

/-- A JS value usable as a version: a string, or a number carried by its
canonical JS string representation (e.g. the float `1.5` is `JVal.num "1.5"`,
because `String(1.5) = "1.5"`; IEEE-754 printing itself is out of scope). -/
inductive JVal where
  | str (s : String)
  | num (r : String)
deriving DecidableEq, Repr

/-- The JS string coercion `String(x)` on a version value. -/
def JVal.toStr : JVal → String
  | .str s => s
  | .num r => r

/-- JS truthiness of a version value: the empty string and the number 0
(canonical representation "0") are falsy; `NaN` cannot occur in JSON. -/
def JVal.truthy : JVal → Bool
  | .str s => s ≠ ""
  | .num r => r ≠ "0"

/-- One finding `{ name, version }` as pushed by `compare` in `lib/core.js`. -/
structure Finding where
  name : String
  version : String
deriving DecidableEq, Repr

/-- An inventory: the JS `Map` from package name to `Set` of version strings,
as built by `add` (`lib/core.js`). Entry order is `Map` insertion order. -/
abbrev Inventory := List (String × List String)

/-- JS `Map.prototype.get` on an association list (`none` is `undefined`);
`Map.prototype.has` is `isSome` of this. -/
def lookupA {α : Type} (m : List (String × α)) (n : String) : Option α :=
  (m.find? (fun p => p.1 == n)).map (fun p => p.2)

/-- JS `Set.prototype.add` on the list of members of a string set: append the
value if it is not yet a member (SameValueZero on strings is string equality). -/
def setAdd (s : List String) (v : String) : List String :=
  if s.contains v then s else s ++ [v]

/-- The `add` function of `lib/core.js`:
`if (!map.has(name)) map.set(name, new Set()); map.get(name).add(String(version));`. -/
def add (map : Inventory) (name : String) (version : JVal) : Inventory :=
  let m1 := if map.any (fun p => p.1 == name) then map else map ++ [(name, [])]
  m1.map (fun p => if p.1 == name then (p.1, setAdd p.2 version.toStr) else p)

/-- The dedup key of `uniqFindings` in `lib/core.js`: the template string
interpolation that produces the identity key `name@version`. -/
def findingKey (f : Finding) : String :=
  f.name ++ "@" ++ f.version

/-- The loop of `uniqFindings` (`lib/core.js`): `findings.filter` with the
closed-over mutable `seen` set of keys, given here as an explicit accumulator. -/
def uniqFindingsAux (seen : List String) : List Finding → List Finding
  | [] => []
  | f :: rest =>
    if seen.contains (findingKey f) then uniqFindingsAux seen rest
    else f :: uniqFindingsAux (findingKey f :: seen) rest

/-- The `uniqFindings` function of `lib/core.js`: keep the first occurrence of
each `name@version` key, in input order. -/
def uniqFindings (findings : List Finding) : List Finding :=
  uniqFindingsAux [] findings

/-- One element of the `packages` array of the known-bad data. `badVersions`
is `none` when the JS object supplies no `badVersions` field at all
(`entry.badVersions` is then `undefined`). -/
structure KnownBadEntry where
  name : String
  badVersions : Option (List JVal)
deriving DecidableEq, Repr

/-- The known-bad registry value consumed by `compare`: an object with a
`packages` array. -/
structure KnownBad where
  packages : List KnownBadEntry
deriving DecidableEq, Repr

/-- JS `Map.prototype.set` on an association list: overwrite the value at an
existing key in place (keeping its position), otherwise append a new entry. -/
def mapSet {α : Type} (m : List (String × α)) (k : String) (v : α) :
    List (String × α) :=
  if m.any (fun p => p.1 == k) then
    m.map (fun p => if p.1 == k then (k, v) else p)
  else m ++ [(k, v)]

/-- The index-building loop of `compare` (`lib/core.js`):
`for (const entry of knownBad.packages) badIndex.set(entry.name, new Set(entry.badVersions.map(String)))`.
When `entry.badVersions` is `undefined` the call `.map` throws a `TypeError`
(`Except.error ()`). Duplicate `Set` members are immaterial for membership, so
the member list is kept as the mapped list. -/
def buildBadIndexAux (idx : List (String × List String)) :
    List KnownBadEntry → Except Unit (List (String × List String))
  | [] => .ok idx
  | e :: rest =>
    match e.badVersions with
    | none => .error ()
    | some bvs => buildBadIndexAux (mapSet idx e.name (bvs.map JVal.toStr)) rest

/-- The finding-collection loops of `compare` (`lib/core.js`), run against an
already-built bad index: for each inventory entry in order, if the name is in
the index, push one finding per version contained in the bad set. -/
def compareCore (idx : List (String × List String)) (installedMap : Inventory) :
    List Finding :=
  installedMap.foldl
    (fun findings nv =>
      match lookupA idx nv.1 with
      | none => findings
      | some bad =>
        nv.2.foldl
          (fun fs v => if bad.contains v then fs ++ [⟨nv.1, v⟩] else fs)
          findings)
    []

/-- The `compare` function of `lib/core.js`: build the bad index from
`knownBad.packages`, then scan the installed map. -/
def compare (installedMap : Inventory) (knownBad : KnownBad) :
    Except Unit (List Finding) :=
  (buildBadIndexAux [] knownBad.packages).map
    (fun idx => compareCore idx installedMap)

/-- The JS `String.prototype.startsWith` test, on the character sequences of
the two strings. -/
def strStartsWith (s p : String) : Bool :=
  p.data.isPrefixOf s.data

/-- The name normalization of the flat-map branch of `collectFromPackageLock`
(`lib/core.js`): `key.replace(/^node_modules\x2f/, "")` removes exactly one
leading `node_modules/` when present and leaves the key unchanged otherwise. -/
def stripNodeModules (key : String) : String :=
  if strStartsWith key "node_modules/" then
    String.mk (key.data.drop ("node_modules/".length))
  else key

/-- The `lock.packages` (flat-map) branch of `collectFromPackageLock`
(`lib/core.js`): each record is `(key, meta.version)`, where the version is
`none` when `meta` is null or carries no `version` field; records whose
version is falsy (`!meta.version`) are skipped, the rest are added under the
stripped key. -/
def collectFromPackageLockFlat (pkgs : List (String × Option JVal))
    (hits : Inventory) : Inventory :=
  pkgs.foldl
    (fun h kv =>
      match kv.2 with
      | none => h
      | some v => if v.truthy then add h (stripNodeModules kv.1) v else h)
    hits

/-- A parsed JSON value, as returned by `JSON.parse`. Object field lists have
unique keys (a duplicated source key is collapsed by the parser, last wins)
and numbers are carried by their canonical JS string representation. -/
inductive JSON where
  | null
  | bool (b : Bool)
  | num (r : String)
  | str (s : String)
  | arr (elems : List JSON)
  | obj (fields : List (String × JSON))

/-- JS property access `d.k` on a parsed JSON value: only objects have data
fields; `none` is `undefined`. -/
def JSON.getField : JSON → String → Option JSON
  | .obj fields, k => lookupA fields k
  | _, _ => none

/-- JS `ToBoolean` on a parsed JSON value (`!data` is its negation): `null`,
`false`, the numbers 0 and -0 (canonical representation "0") and the empty
string are falsy. -/
def JSON.truthy : JSON → Bool
  | .null => false
  | .bool b => b
  | .num r => r ≠ "0"
  | .str s => s ≠ ""
  | .arr _ => true
  | .obj _ => true

/-- JS `Array.isArray`. -/
def JSON.isArray : JSON → Bool
  | .arr _ => true
  | _ => false

/-- The validation of `loadKnownBad` (`check-compromised.js` lines 53-57): the
input is the result of `readJSONSafe` (`none` when the data could not be
parsed); the result is `true` exactly when the loader prints the
configuration error and aborts with exit code 2, i.e. when
`!data || !Array.isArray(data.packages)`. -/
def loadKnownBadRejects (data : Option JSON) : Bool :=
  match data with
  | none => true
  | some d =>
    !d.truthy ||
      !(match d.getField "packages" with
        | some v => v.isArray
        | none => false)

/-! ### The merge step of `main`, with an explicit store of `Set` objects

`main` (`check-compromised.js` lines 187-191) runs
`const merged = new Map(lock); for (const [name, vers] of nm.entries()) { if (!merged.has(name)) merged.set(name, new Set()); for (const v of vers) merged.get(name).add(v); }`.
`new Map(lock)` copies the entries but shares the `Set` objects, so mutation
through `merged` is observable through `lock`. The store `Heap` holds every
`Set` object; a `HMap` maps names to store references. -/

/-- The store of JS `Set` objects: position `r` holds the member list of the
set referenced by `r`. Allocation (`new Set()`) appends. -/
abbrev Heap := List (List String)

/-- An inventory `Map` whose values are references into the store. -/
abbrev HMap := List (String × Nat)

/-- Dereference a `Set` object. -/
def heapGet (h : Heap) (r : Nat) : List String :=
  h.getD r []

/-- Mutate the `Set` object at `r` by `Set.prototype.add v`. -/
def heapAdd (h : Heap) (r : Nat) (v : String) : Heap :=
  h.set r (setAdd (heapGet h r) v)

/-- JS `Map.prototype.has` on a reference map. -/
def hmapHas (m : HMap) (n : String) : Bool :=
  m.any (fun p => p.1 == n)

/-- JS `Map.prototype.get` on a reference map. -/
def hmapGet (m : HMap) (n : String) : Option Nat :=
  lookupA m n

/-- The reference list of a reference map. -/
def refsOf (m : HMap) : List Nat :=
  m.map (fun p => p.2)

/-- The key list of a reference map. -/
def keysOf (m : HMap) : List String :=
  m.map (fun p => p.1)

/-- The merge loop of `main` over the remaining `nm` entries, acting on the
store and on `merged` (which starts as `new Map(lock)`, sharing `lock`'s set
references). For one entry: read the entry's set, ensure `merged` has a set
for the name (allocating `new Set()` at a fresh reference otherwise), then
`add` every version into the set `merged.get(name)` refers to — an in-place
store mutation. -/
def mergeInto (h : Heap) (merged : HMap) : List (String × Nat) → Heap × HMap
  | [] => (h, merged)
  | (name, vr) :: rest =>
    let vers := heapGet h vr
    let hm :=
      if hmapHas merged name then (h, merged)
      else (h ++ [[]], merged ++ [(name, h.length)])
    let tr := (hmapGet hm.2 name).getD 0
    let h2 := vers.foldl (fun hh v => heapAdd hh tr v) hm.1
    mergeInto h2 hm.2 rest

/-- The merge step of `main`: `merged` starts as `new Map(lock)` — the same
entries, referring to the same `Set` objects — and the loop folds `nm` in. -/
def merge (h : Heap) (lock nm : HMap) : Heap × HMap :=
  mergeInto h lock nm

/-! ### The filesystem collector's `walk` (`check-compromised.js` lines 76-110)

The filesystem is an abstract (possibly cyclic or infinitely deep) structure
of functions, so termination of the embedded `walk` is exactly the depth
cutoff. Besides the inventory, `walk` returns the log of `readdirSync`
attempts as `(directory, depth)` pairs, which makes the traversal bound
statable. -/

/-- One `fs.Dirent`: a directory entry with its name and `isDirectory()`. -/
structure FSEnt where
  name : String
  isDir : Bool
deriving DecidableEq, Repr

/-- The filesystem seen by `walk`. Paths are segment lists. `readdir` is
`fs.readdirSync` (`none` when it throws); `existsDir` is the
`fs.existsSync(nested)` test; `manifest` is the combined outcome of
`processPkg` reading `pkgDir/package.json`: `some (name, version)` exactly
when the file exists, parses, and declares truthy `name` and `version`. -/
structure FS where
  readdir : List String → Option (List FSEnt)
  existsDir : List String → Bool
  manifest : List String → Option (String × JVal)

/-- The `processPkg` helper of `collectFromNodeModules`: add the manifest's
`(name, version)` when present, otherwise leave the inventory unchanged. -/
def processPkg (fs : FS) (pkgDir : List String) (hits : Inventory) : Inventory :=
  match fs.manifest pkgDir with
  | none => hits
  | some nv => add hits nv.1 nv.2

mutual

/-- The `walk` function of `collectFromNodeModules`: return at `depth > 6`
before reading anything; otherwise read the directory (returning on a
`readdirSync` throw) and process its entries. -/
def walk (fs : FS) (dir : List String) (depth : Nat) (hits : Inventory) :
    Inventory × List (List String × Nat) :=
  if h : depth > 6 then (hits, [])
  else
    match fs.readdir dir with
    | none => (hits, [(dir, depth)])
    | some entries =>
      let r := walkEntries fs dir depth entries hits (Nat.le_of_not_lt h)
      (r.1, (dir, depth) :: r.2)
termination_by (7 - depth, 2, 0)

/-- The `for (const ent of entries)` loop of `walk`: skip non-directories and
dot-prefixed names; descend one level into an `@`-prefixed namespace
container; otherwise process the package directory and recurse into its
`node_modules` at `depth + 1` when it exists. The proof argument records
that the loop only runs below the depth cutoff (it is what bounds the
recursion). -/
def walkEntries (fs : FS) (dir : List String) (depth : Nat)
    (entries : List FSEnt) (hits : Inventory) (h : depth ≤ 6) :
    Inventory × List (List String × Nat) :=
  match entries with
  | [] => (hits, [])
  | ent :: rest =>
    if !ent.isDir || strStartsWith ent.name "." then
      walkEntries fs dir depth rest hits h
    else if strStartsWith ent.name "@" then
      let scopeDir := dir ++ [ent.name]
      match fs.readdir scopeDir with
      | none =>
        let r := walkEntries fs dir depth rest hits h
        (r.1, (scopeDir, depth) :: r.2)
      | some scopedEnts =>
        let r1 := walkScoped fs scopeDir depth scopedEnts hits h
        let r2 := walkEntries fs dir depth rest r1.1 h
        (r2.1, (scopeDir, depth) :: (r1.2 ++ r2.2))
    else
      let pkgDir := dir ++ [ent.name]
      let hits1 := processPkg fs pkgDir hits
      let nested := pkgDir ++ ["node_modules"]
      if fs.existsDir nested then
        let r1 := walk fs nested (depth + 1) hits1
        let r2 := walkEntries fs dir depth rest r1.1 h
        (r2.1, r1.2 ++ r2.2)
      else
        walkEntries fs dir depth rest hits1 h
termination_by (7 - depth, 1, entries.length)

/-- The `for (const s of scopedEnts)` loop inside the `@`-namespace branch of
`walk`: skip non-directories (dot-prefixed names are not filtered here),
process each child as a package directory, and recurse into its
`node_modules` at `depth + 1` when it exists. -/
def walkScoped (fs : FS) (scopeDir : List String) (depth : Nat)
    (scopedEnts : List FSEnt) (hits : Inventory) (h : depth ≤ 6) :
    Inventory × List (List String × Nat) :=
  match scopedEnts with
  | [] => (hits, [])
  | s :: rest =>
    if !s.isDir then
      walkScoped fs scopeDir depth rest hits h
    else
      let pkgDir := scopeDir ++ [s.name]
      let hits1 := processPkg fs pkgDir hits
      let nested := pkgDir ++ ["node_modules"]
      if fs.existsDir nested then
        let r1 := walk fs nested (depth + 1) hits1
        let r2 := walkScoped fs scopeDir depth rest r1.1 h
        (r2.1, r1.2 ++ r2.2)
      else
        walkScoped fs scopeDir depth rest hits1 h
termination_by (7 - depth, 0, scopedEnts.length)

end

/-- The entry of `knownBad.packages` whose bad-version set ends up in the
index for a given name: the last entry with that name (later `Map.set` calls
overwrite earlier ones). -/
def lastEntryFor (packages : List KnownBadEntry) (n : String) :
    Option KnownBadEntry :=
  packages.reverse.find? (fun e => e.name == n)

/-- The per-name finding segment of `compare`: the findings pushed while the
outer loop sits on one inventory entry. -/
def comparePerName (idx : List (String × List String))
    (nv : String × List String) : List Finding :=
  match lookupA idx nv.1 with
  | none => []
  | some bad => (nv.2.filter (fun v => bad.contains v)).map (fun v => ⟨nv.1, v⟩)

/-- The position of a finding relative to an inventory: the index of its
name's entry in the inventory, and the index of its version inside that
entry's version set. -/
def posIn (I : Inventory) (f : Finding) : Nat × Nat :=
  (I.findIdx (fun p => p.1 == f.name),
    ((lookupA I f.name).getD []).indexOf f.version)

/-- Lexicographic order on positions: earlier inventory entry, or same entry
and earlier version. -/
def posLt (a b : Nat × Nat) : Prop :=
  a.1 < b.1 ∨ (a.1 = b.1 ∧ a.2 < b.2)

/-- Membership of a version in an inventory entry's version set. -/
def invMem (m : Inventory) (n v : String) : Prop :=
  ∃ s, lookupA m n = some s ∧ v ∈ s

/-- Membership of a version string in the set an inventory name refers to,
through the store. -/
def hInvMem (h : Heap) (m : HMap) (n v : String) : Prop :=
  ∃ r, hmapGet m n = some r ∧ v ∈ heapGet h r

/-- A concrete filesystem whose only manifest sits in a dot-named child
directory of an `@`-prefixed namespace container. -/
def fsHiddenScoped : FS where
  readdir := fun p =>
    if p = ["node_modules"] then some [⟨"@scope", true⟩]
    else if p = ["node_modules", "@scope"] then some [⟨".hidden", true⟩]
    else none
  existsDir := fun _ => false
  manifest := fun p =>
    if p = ["node_modules", "@scope", ".hidden"] then
      some ("hidden-pkg", .str "1.0.0")
    else none

/-! ### Association-list and set helper lemmas -/

theorem contains_true_iff {s : List String} {v : String} :
    s.contains v = true ↔ v ∈ s := by
  simp

theorem lookupA_cons {α : Type} (k : String) (v : α) (m : List (String × α))
    (n : String) :
    lookupA ((k, v) :: m) n = if k = n then some v else lookupA m n := by
  by_cases h : k = n
  · subst h
    simp [lookupA, List.find?_cons_of_pos]
  · simp only [lookupA, h, if_false]
    rw [List.find?_cons_of_neg]
    simpa using h

theorem lookupA_append {α : Type} (m₁ m₂ : List (String × α)) (n : String) :
    lookupA (m₁ ++ m₂) n = (lookupA m₁ n).or (lookupA m₂ n) := by
  simp only [lookupA, List.find?_append]
  cases List.find? (fun p => p.1 == n) m₁ <;> simp

theorem lookupA_mem {α : Type} {m : List (String × α)} {n : String} {v : α}
    (h : lookupA m n = some v) : (n, v) ∈ m := by
  simp only [lookupA, Option.map_eq_some'] at h
  obtain ⟨p, hp, hv⟩ := h
  have hmem := List.mem_of_find?_eq_some hp
  have hkey : p.1 = n := by simpa using List.find?_some hp
  obtain ⟨k, w⟩ := p
  simp only at hkey hv
  rw [← hkey, ← hv]
  exact hmem

theorem lookupA_isSome_iff {α : Type} {m : List (String × α)} {n : String} :
    (lookupA m n).isSome = true ↔ ∃ p ∈ m, p.1 = n := by
  simp [lookupA, List.find?_isSome]

theorem lookupA_eq_none_iff {α : Type} {m : List (String × α)} {n : String} :
    lookupA m n = none ↔ ∀ p ∈ m, p.1 ≠ n := by
  constructor
  · intro h p hp hn
    have hs : (lookupA m n).isSome = true := lookupA_isSome_iff.mpr ⟨p, hp, hn⟩
    rw [h] at hs
    cases hs
  · intro h
    cases hs : lookupA m n with
    | none => rfl
    | some v => exact absurd rfl (h _ (lookupA_mem hs))

theorem lookupA_of_mem_nodup {α : Type} {m : List (String × α)} {n : String}
    {v : α} (hmem : (n, v) ∈ m) (hnd : (m.map Prod.fst).Nodup) :
    lookupA m n = some v := by
  induction m with
  | nil => cases hmem
  | cons p rest ih =>
    obtain ⟨k, w⟩ := p
    simp only [List.map_cons, List.nodup_cons] at hnd
    rcases List.mem_cons.mp hmem with h | h
    · simp only [Prod.mk.injEq] at h
      rw [lookupA_cons, if_pos h.1.symm, h.2]
    · have hk : k ≠ n := by
        intro hkn
        refine hnd.1 ?_
        rw [hkn]
        simpa using List.mem_map_of_mem Prod.fst h
      rw [lookupA_cons, if_neg hk]
      exact ih h hnd.2

theorem mem_setAdd {s : List String} {w v : String} :
    v ∈ setAdd s w ↔ v ∈ s ∨ v = w := by
  unfold setAdd
  by_cases h : w ∈ s
  · rw [if_pos (contains_true_iff.mpr h)]
    constructor
    · exact Or.inl
    · rintro (hv | rfl)
      · exact hv
      · exact h
  · rw [if_neg (fun hc => h (contains_true_iff.mp hc))]
    simp

theorem setAdd_nodup {s : List String} {w : String} (h : s.Nodup) :
    (setAdd s w).Nodup := by
  unfold setAdd
  by_cases hc : w ∈ s
  · rwa [if_pos (contains_true_iff.mpr hc)]
  · rw [if_neg (fun hx => hc (contains_true_iff.mp hx))]
    refine List.Nodup.append h (List.nodup_singleton w) ?_
    intro a ha hb
    simp only [List.mem_singleton] at hb
    subst hb
    exact hc ha

theorem mem_foldl_setAdd {l : List String} {init : List String} {v : String} :
    v ∈ l.foldl setAdd init ↔ v ∈ init ∨ v ∈ l := by
  induction l generalizing init with
  | nil => simp
  | cons w rest ih =>
    simp only [List.foldl_cons, ih, mem_setAdd, List.mem_cons]
    tauto

/-! ### The deduplicator (`uniqFindings`) -/

theorem uniqFindingsAux_sublist (seen : List String) (fs : List Finding) :
    (uniqFindingsAux seen fs).Sublist fs := by
  induction fs generalizing seen with
  | nil => simp [uniqFindingsAux]
  | cons f rest ih =>
    simp only [uniqFindingsAux]
    split
    · exact (ih seen).cons f
    · exact (ih _).cons₂ f

theorem uniqFindingsAux_first {seen : List String} {fs : List Finding}
    {g : Finding} (hg : g ∈ uniqFindingsAux seen fs) :
    findingKey g ∉ seen ∧
      fs.find? (fun x => findingKey x == findingKey g) = some g := by
  induction fs generalizing seen with
  | nil => cases hg
  | cons f rest ih =>
    simp only [uniqFindingsAux] at hg
    by_cases hseen : seen.contains (findingKey f) = true
    · rw [if_pos hseen] at hg
      obtain ⟨hns, hfind⟩ := ih hg
      have hne : findingKey f ≠ findingKey g := by
        intro he
        exact hns (he ▸ contains_true_iff.mp hseen)
      refine ⟨hns, ?_⟩
      rw [List.find?_cons_of_neg]
      · exact hfind
      · simpa using hne
    · rw [if_neg hseen] at hg
      rcases List.mem_cons.mp hg with rfl | hg
      · refine ⟨fun hs => hseen (contains_true_iff.mpr hs), ?_⟩
        exact List.find?_cons_of_pos rest (by simp)
      · obtain ⟨hns, hfind⟩ := ih hg
        simp only [List.mem_cons, not_or] at hns
        refine ⟨hns.2, ?_⟩
        rw [List.find?_cons_of_neg]
        · exact hfind
        · simpa using fun he => hns.1 he.symm

theorem uniqFindingsAux_covers {seen : List String} {fs : List Finding}
    {f : Finding} (hf : f ∈ fs) (hns : findingKey f ∉ seen) :
    ∃ g ∈ uniqFindingsAux seen fs, findingKey g = findingKey f := by
  induction fs generalizing seen with
  | nil => cases hf
  | cons f0 rest ih =>
    simp only [uniqFindingsAux]
    by_cases hseen : seen.contains (findingKey f0) = true
    · rw [if_pos hseen]
      rcases List.mem_cons.mp hf with rfl | hf
      · exact absurd (contains_true_iff.mp hseen) hns
      · exact ih hf hns
    · rw [if_neg hseen]
      rcases List.mem_cons.mp hf with rfl | hf
      · exact ⟨f, List.mem_cons_self _ _, rfl⟩
      · by_cases hkey : findingKey f = findingKey f0
        · exact ⟨f0, List.mem_cons_self _ _, hkey.symm⟩
        · obtain ⟨g, hg, hgk⟩ :=
            @ih (findingKey f0 :: seen) hf (by simp [hns, hkey])
          exact ⟨g, List.mem_cons_of_mem _ hg, hgk⟩

theorem uniqFindingsAux_pairwise (seen : List String) (fs : List Finding) :
    (uniqFindingsAux seen fs).Pairwise
      (fun f g => findingKey f ≠ findingKey g) := by
  induction fs generalizing seen with
  | nil => simp [uniqFindingsAux]
  | cons f rest ih =>
    simp only [uniqFindingsAux]
    split
    · exact ih seen
    · refine List.Pairwise.cons ?_ (ih _)
      intro g hg hk
      exact (uniqFindingsAux_first hg).1 (hk ▸ List.mem_cons_self _ _)

theorem uniqFindingsAux_of_pairwise {seen : List String} {fs : List Finding}
    (hdisj : ∀ g ∈ fs, findingKey g ∉ seen)
    (hpw : fs.Pairwise (fun f g => findingKey f ≠ findingKey g)) :
    uniqFindingsAux seen fs = fs := by
  induction fs generalizing seen with
  | nil => rfl
  | cons f rest ih =>
    simp only [uniqFindingsAux]
    rw [if_neg]
    · rw [ih]
      · intro g hg
        simp only [List.mem_cons, not_or]
        have hpc := List.pairwise_cons.mp hpw
        exact ⟨fun he => hpc.1 g hg he.symm,
          hdisj g (List.mem_cons_of_mem _ hg)⟩
      · exact (List.pairwise_cons.mp hpw).2
    · intro hc
      exact hdisj f (List.mem_cons_self _ _) (contains_true_iff.mp hc)

/-! ### The comparator (`compare`) -/

theorem lookupA_map_upd_self {α : Type} (m : List (String × α)) (k : String)
    (v : α) :
    lookupA (m.map (fun p => if p.1 == k then (k, v) else p)) k =
      (lookupA m k).map (fun _ => v) := by
  induction m with
  | nil => rfl
  | cons p rest ih =>
    obtain ⟨k0, w⟩ := p
    by_cases h : k0 = k
    · subst h
      simp only [List.map_cons, beq_self_eq_true, if_true]
      rw [lookupA_cons, lookupA_cons]
      simp
    · simp only [List.map_cons, beq_eq_false_iff_ne.mpr h, Bool.false_eq_true,
        if_false]
      rw [lookupA_cons, lookupA_cons, if_neg h, if_neg h]
      exact ih

theorem lookupA_map_upd_ne {α : Type} (m : List (String × α)) (k : String)
    (v : α) {n : String} (hn : n ≠ k) :
    lookupA (m.map (fun p => if p.1 == k then (k, v) else p)) n =
      lookupA m n := by
  induction m with
  | nil => rfl
  | cons p rest ih =>
    obtain ⟨k0, w⟩ := p
    by_cases h : k0 = k
    · subst h
      simp only [List.map_cons, beq_self_eq_true, if_true]
      rw [lookupA_cons, lookupA_cons, if_neg (fun he => hn he.symm),
        if_neg (fun he => hn he.symm)]
      exact ih
    · simp only [List.map_cons, beq_eq_false_iff_ne.mpr h, Bool.false_eq_true,
        if_false]
      rw [lookupA_cons, lookupA_cons]
      by_cases hk0 : k0 = n
      · simp [hk0]
      · rw [if_neg hk0, if_neg hk0]
        exact ih

theorem lookupA_mapSet_self {α : Type} (m : List (String × α)) (k : String)
    (v : α) : lookupA (mapSet m k v) k = some v := by
  unfold mapSet
  by_cases h : m.any (fun p => p.1 == k) = true
  · rw [if_pos h, lookupA_map_upd_self]
    simp only [List.any_eq_true, beq_iff_eq] at h
    obtain ⟨p, hp, hk⟩ := h
    have : (lookupA m k).isSome = true := lookupA_isSome_iff.mpr ⟨p, hp, hk⟩
    cases hl : lookupA m k with
    | none => rw [hl] at this; cases this
    | some w => simp
  · rw [if_neg h, lookupA_append]
    have hnone : lookupA m k = none := by
      rw [lookupA_eq_none_iff]
      intro p hp hk
      exact h (List.any_eq_true.mpr ⟨p, hp, by simpa using hk⟩)
    rw [hnone]
    rw [lookupA_cons]
    simp

theorem lookupA_mapSet_ne {α : Type} (m : List (String × α)) (k : String)
    (v : α) {n : String} (hn : n ≠ k) :
    lookupA (mapSet m k v) n = lookupA m n := by
  unfold mapSet
  by_cases h : m.any (fun p => p.1 == k) = true
  · rw [if_pos h, lookupA_map_upd_ne _ _ _ hn]
  · rw [if_neg h, lookupA_append, lookupA_cons, if_neg (fun he => hn he.symm)]
    cases lookupA m n <;> rfl

theorem lastEntryFor_cons (e0 : KnownBadEntry) (rest : List KnownBadEntry)
    (n : String) :
    lastEntryFor (e0 :: rest) n =
      (lastEntryFor rest n).or (if e0.name = n then some e0 else none) := by
  unfold lastEntryFor
  rw [List.reverse_cons, List.find?_append]
  by_cases h : e0.name = n
  · simp [h]
  · simp only [h, if_false]
    rw [List.find?_cons_of_neg _ (by simpa using h)]
    simp

theorem buildBadIndexAux_isOk {idx0 : List (String × List String)}
    {es : List KnownBadEntry}
    (h : ∀ e ∈ es, e.badVersions ≠ none) :
    ∃ idx, buildBadIndexAux idx0 es = .ok idx := by
  induction es generalizing idx0 with
  | nil => exact ⟨idx0, rfl⟩
  | cons e rest ih =>
    cases hb : e.badVersions with
    | none => exact absurd hb (h e (List.mem_cons_self _ _))
    | some bvs =>
      obtain ⟨idx, hidx⟩ :=
        @ih (mapSet idx0 e.name (bvs.map JVal.toStr))
          (fun x hx => h x (List.mem_cons_of_mem _ hx))
      exact ⟨idx, by simpa [buildBadIndexAux, hb] using hidx⟩

theorem buildBadIndexAux_error {idx0 : List (String × List String)}
    {es : List KnownBadEntry} {e : KnownBadEntry}
    (hmem : e ∈ es) (hnone : e.badVersions = none) :
    buildBadIndexAux idx0 es = .error () := by
  induction es generalizing idx0 with
  | nil => cases hmem
  | cons e0 rest ih =>
    rcases List.mem_cons.mp hmem with rfl | hmem
    · simp [buildBadIndexAux, hnone]
    · cases hb : e0.badVersions with
      | none => simp [buildBadIndexAux, hb]
      | some bvs => simpa [buildBadIndexAux, hb] using ih hmem

theorem buildBadIndexAux_lookup {idx0 idx : List (String × List String)}
    {es : List KnownBadEntry}
    (h : buildBadIndexAux idx0 es = .ok idx) (n : String) :
    lookupA idx n =
      match lastEntryFor es n with
      | some e => some ((e.badVersions.getD []).map JVal.toStr)
      | none => lookupA idx0 n := by
  induction es generalizing idx0 with
  | nil =>
    simp only [buildBadIndexAux, Except.ok.injEq] at h
    subst h
    rfl
  | cons e0 rest ih =>
    cases hb : e0.badVersions with
    | none => rw [buildBadIndexAux, hb] at h; cases h
    | some bvs =>
      rw [buildBadIndexAux, hb] at h
      rw [lastEntryFor_cons]
      cases hl : lastEntryFor rest n with
      | some e =>
        simpa [hl] using ih h
      | none =>
        have hbase := ih h
        rw [hl] at hbase
        by_cases he : e0.name = n
        · simp only [hl, Option.none_or, he, if_true]
          rw [hbase, ← he, lookupA_mapSet_self, hb]
          rfl
        · simp only [hl, Option.none_or, he, if_false]
          rw [hbase, lookupA_mapSet_ne _ _ _ (fun hx => he hx.symm)]

theorem compareCore_inner (bad : List String) (n : String) (vs : List String)
    (fs0 : List Finding) :
    vs.foldl (fun fs v => if bad.contains v then fs ++ [⟨n, v⟩] else fs) fs0 =
      fs0 ++ (vs.filter (fun v => bad.contains v)).map
        (fun v => (⟨n, v⟩ : Finding)) := by
  induction vs generalizing fs0 with
  | nil => simp
  | cons v rest ih =>
    simp only [List.foldl_cons, List.filter_cons]
    by_cases h : bad.contains v = true
    · rw [if_pos h, ih, if_pos h]
      simp
    · rw [if_neg h, ih, if_neg h]

theorem compareCore_step (idx : List (String × List String))
    (nv : String × List String) (fs0 : List Finding) :
    (match lookupA idx nv.1 with
     | none => fs0
     | some bad =>
       nv.2.foldl
         (fun fs v => if bad.contains v then fs ++ [⟨nv.1, v⟩] else fs)
         fs0) =
      fs0 ++ comparePerName idx nv := by
  cases hl : lookupA idx nv.1 with
  | none => simp [comparePerName, hl]
  | some bad =>
    dsimp only
    rw [compareCore_inner]
    simp [comparePerName, hl]

theorem compareCore_eq (idx : List (String × List String)) (I : Inventory) :
    compareCore idx I = I.flatMap (comparePerName idx) := by
  suffices haux : ∀ (J : Inventory) (fs0 : List Finding),
      J.foldl
        (fun findings nv =>
          match lookupA idx nv.1 with
          | none => findings
          | some bad =>
            nv.2.foldl
              (fun fs v => if bad.contains v then fs ++ [⟨nv.1, v⟩] else fs)
              findings)
        fs0 = fs0 ++ J.flatMap (comparePerName idx) by
    have h2 := haux I []
    rw [List.nil_append] at h2
    exact h2
  intro J
  induction J with
  | nil => simp
  | cons nv rest ih =>
    intro fs0
    rw [List.foldl_cons, ih, List.flatMap_cons, ← List.append_assoc]
    congr 1
    exact compareCore_step idx nv fs0

theorem mem_comparePerName {idx : List (String × List String)}
    {nv : String × List String} {f : Finding} :
    f ∈ comparePerName idx nv ↔
      nv.1 = f.name ∧ f.version ∈ nv.2 ∧
        ∃ bs, lookupA idx f.name = some bs ∧ f.version ∈ bs := by
  unfold comparePerName
  cases hl : lookupA idx nv.1 with
  | none =>
    simp only [List.not_mem_nil, false_iff, not_and]
    intro hn hv hex
    obtain ⟨bs, hbs, hvb⟩ := hex
    rw [← hn, hl] at hbs
    cases hbs
  | some bad =>
    simp only [List.mem_map, List.mem_filter]
    constructor
    · rintro ⟨v, ⟨hv, hb⟩, rfl⟩
      exact ⟨rfl, hv, bad, hl, contains_true_iff.mp hb⟩
    · rintro ⟨hn, hv, bs, hbs, hvb⟩
      refine ⟨f.version, ⟨hv, ?_⟩, ?_⟩
      · rw [hn] at hl
        rw [hl] at hbs
        cases hbs
        exact contains_true_iff.mpr hvb
      · rw [hn]

theorem mem_compareCore {idx : List (String × List String)} {I : Inventory}
    {f : Finding} :
    f ∈ compareCore idx I ↔
      ∃ p ∈ I, p.1 = f.name ∧ f.version ∈ p.2 ∧
        ∃ bs, lookupA idx f.name = some bs ∧ f.version ∈ bs := by
  rw [compareCore_eq, List.mem_flatMap]
  constructor
  · rintro ⟨p, hp, hf⟩
    obtain ⟨hn, hv, hbs⟩ := mem_comparePerName.mp hf
    exact ⟨p, hp, hn, hv, hbs⟩
  · rintro ⟨p, hp, hn, hv, hbs⟩
    exact ⟨p, hp, mem_comparePerName.mpr ⟨hn, hv, hbs⟩⟩

theorem nodup_pairwise_indexOf {vs : List String} (h : vs.Nodup) :
    vs.Pairwise (fun a b => vs.indexOf a < vs.indexOf b) := by
  induction vs with
  | nil => simp
  | cons v rest ih =>
    obtain ⟨hv, hrest⟩ := List.nodup_cons.mp h
    rw [List.pairwise_cons]
    constructor
    · intro b hb
      have hbv : v ≠ b := fun he => hv (he ▸ hb)
      rw [List.indexOf_cons_self, List.indexOf_cons_ne _ hbv]
      exact Nat.succ_pos _
    · refine (ih hrest).imp_of_mem ?_
      intro a b ha hb hlt
      have hva : v ≠ a := fun he => hv (he ▸ ha)
      have hvb : v ≠ b := fun he => hv (he ▸ hb)
      rw [List.indexOf_cons_ne _ hva, List.indexOf_cons_ne _ hvb]
      exact Nat.succ_lt_succ hlt

theorem mem_compareCore_name {idx : List (String × List String)}
    {I : Inventory} {f : Finding} (hf : f ∈ compareCore idx I) :
    ∃ p ∈ I, p.1 = f.name := by
  obtain ⟨p, hp, hn, -⟩ := mem_compareCore.mp hf
  exact ⟨p, hp, hn⟩

theorem compareCore_nodup {idx : List (String × List String)} {I : Inventory}
    (hkeys : (I.map Prod.fst).Nodup) (hvals : ∀ p ∈ I, p.2.Nodup) :
    (compareCore idx I).Nodup := by
  rw [compareCore_eq]
  induction I with
  | nil => simp
  | cons nv rest ih =>
    simp only [List.map_cons, List.nodup_cons] at hkeys
    rw [List.flatMap_cons]
    refine List.Nodup.append ?_
      (ih hkeys.2 (fun p hp => hvals p (List.mem_cons_of_mem _ hp))) ?_
    · unfold comparePerName
      cases lookupA idx nv.1 with
      | none => simp
      | some bad =>
        refine List.Nodup.map ?_
          ((hvals nv (List.mem_cons_self _ _)).filter _)
        intro a b hab
        simpa using congrArg Finding.version hab
    · intro f hfseg hfrest
      rw [← compareCore_eq] at hfrest
      obtain ⟨p, hp, hpn⟩ := mem_compareCore_name hfrest
      obtain ⟨hn, -, -⟩ := mem_comparePerName.mp hfseg
      refine hkeys.1 ?_
      rw [hn, ← hpn]
      exact List.mem_map_of_mem Prod.fst hp

theorem posIn_cons_self {nv : String × List String} {I : Inventory}
    {f : Finding} (hn : nv.1 = f.name) :
    posIn (nv :: I) f = (0, nv.2.indexOf f.version) := by
  unfold posIn
  rw [List.findIdx_cons]
  have hb : (nv.1 == f.name) = true := by simpa using hn
  rw [hb]
  have hcons := lookupA_cons nv.1 nv.2 I f.name
  rw [if_pos hn] at hcons
  have : ((nv.1, nv.2) : String × List String) = nv := rfl
  rw [this] at hcons
  rw [hcons]
  rfl

theorem posIn_cons_ne {nv : String × List String} {I : Inventory}
    {f : Finding} (hn : nv.1 ≠ f.name) :
    posIn (nv :: I) f = ((posIn I f).1 + 1, (posIn I f).2) := by
  unfold posIn
  rw [List.findIdx_cons]
  have hb : (nv.1 == f.name) = false := by simpa using hn
  rw [hb]
  have hcons := lookupA_cons nv.1 nv.2 I f.name
  rw [if_neg hn] at hcons
  have : ((nv.1, nv.2) : String × List String) = nv := rfl
  rw [this] at hcons
  rw [hcons]
  rfl

theorem compareCore_pairwise {idx : List (String × List String)}
    {I : Inventory}
    (hkeys : (I.map Prod.fst).Nodup) (hvals : ∀ p ∈ I, p.2.Nodup) :
    (compareCore idx I).Pairwise
      (fun f g => posLt (posIn I f) (posIn I g)) := by
  rw [compareCore_eq]
  induction I with
  | nil => simp
  | cons nv rest ih =>
    simp only [List.map_cons, List.nodup_cons] at hkeys
    rw [List.flatMap_cons, List.pairwise_append]
    refine ⟨?_, ?_, ?_⟩
    · -- within the head segment: same name, increasing version index
      unfold comparePerName
      cases lookupA idx nv.1 with
      | none => simp
      | some bad =>
        rw [List.pairwise_map]
        have hnd := hvals nv (List.mem_cons_self _ _)
        refine List.Pairwise.imp_of_mem ?_
          (List.Pairwise.sublist (List.filter_sublist nv.2)
            (nodup_pairwise_indexOf hnd))
        intro a b ha hb hlt
        have hfa : posIn (nv :: rest) ⟨nv.1, a⟩ = (0, nv.2.indexOf a) :=
          posIn_cons_self rfl
        have hfb : posIn (nv :: rest) ⟨nv.1, b⟩ = (0, nv.2.indexOf b) :=
          posIn_cons_self rfl
        unfold posLt
        rw [hfa, hfb]
        exact Or.inr ⟨rfl, hlt⟩
    · -- within the tail: transport the induction hypothesis one entry out
      refine (ih hkeys.2
        (fun p hp => hvals p (List.mem_cons_of_mem _ hp))).imp_of_mem ?_
      intro f g hf hg hlt
      rw [← compareCore_eq] at hf hg
      obtain ⟨p, hp, hpn⟩ := mem_compareCore_name hf
      obtain ⟨q, hq, hqn⟩ := mem_compareCore_name hg
      have hnf : nv.1 ≠ f.name := by
        intro he
        exact hkeys.1 (by rw [he, ← hpn]; exact List.mem_map_of_mem Prod.fst hp)
      have hng : nv.1 ≠ g.name := by
        intro he
        exact hkeys.1 (by rw [he, ← hqn]; exact List.mem_map_of_mem Prod.fst hq)
      rw [posIn_cons_ne hnf, posIn_cons_ne hng]
      unfold posLt at hlt ⊢
      rcases hlt with h1 | ⟨h1, h2⟩
      · exact Or.inl (Nat.succ_lt_succ h1)
      · exact Or.inr ⟨by simpa using h1, h2⟩
    · -- across: head-segment findings precede tail findings
      intro f hfseg g hgrest
      obtain ⟨hn, -, -⟩ := mem_comparePerName.mp hfseg
      rw [← compareCore_eq] at hgrest
      obtain ⟨q, hq, hqn⟩ := mem_compareCore_name hgrest
      have hng : nv.1 ≠ g.name := by
        intro he
        exact hkeys.1 (by rw [he, ← hqn]; exact List.mem_map_of_mem Prod.fst hq)
      rw [posIn_cons_self hn, posIn_cons_ne hng]
      exact Or.inl (Nat.succ_pos _)


/-! ### The `add` operation -/

theorem lookupA_add (m : Inventory) (name : String) (jv : JVal) (n : String) :
    lookupA (add m name jv) n =
      if n = name then some (setAdd ((lookupA m name).getD []) jv.toStr)
      else lookupA m n := by
  have hupd : ∀ (mm : Inventory),
      lookupA (mm.map (fun p =>
        if p.1 == name then (p.1, setAdd p.2 jv.toStr) else p)) n =
      if n = name then (lookupA mm n).map (fun s => setAdd s jv.toStr)
      else lookupA mm n := by
    intro mm
    induction mm with
    | nil => split <;> simp [lookupA]
    | cons p rest ih =>
      obtain ⟨k, sv⟩ := p
      by_cases hk : k = name
      · subst hk
        simp only [List.map_cons, beq_self_eq_true, if_true]
        rw [lookupA_cons, lookupA_cons]
        by_cases hn : k = n
        · subst hn
          simp [if_pos rfl]
        · rw [if_neg hn, if_neg hn]
          exact ih
      · simp only [List.map_cons, beq_eq_false_iff_ne.mpr hk,
          Bool.false_eq_true, if_false]
        rw [lookupA_cons, lookupA_cons]
        by_cases hn : k = n
        · have hne : ¬ n = name := fun he => hk (hn.trans he)
          rw [if_pos hn, if_neg hne, if_pos hn]
        · rw [if_neg hn, if_neg hn]
          exact ih
  unfold add
  by_cases h : m.any (fun p => p.1 == name) = true
  · simp only [h, if_true]
    rw [hupd m]
    by_cases hn : n = name
    · subst hn
      have hs : (lookupA m n).isSome = true := by
        rw [lookupA_isSome_iff]
        obtain ⟨p, hp, hk⟩ := List.any_eq_true.mp h
        exact ⟨p, hp, by simpa using hk⟩
      cases hl : lookupA m n with
      | none => rw [hl] at hs; cases hs
      | some sv => simp
    · simp [hn]
  · simp only [h, Bool.false_eq_true, if_false]
    rw [hupd (m ++ [(name, [])])]
    have hnone : lookupA m name = none := by
      rw [lookupA_eq_none_iff]
      intro p hp hk
      exact h (List.any_eq_true.mpr ⟨p, hp, by simpa using hk⟩)
    by_cases hn : n = name
    · subst hn
      rw [if_pos rfl, if_pos rfl, lookupA_append, hnone, lookupA_cons,
        if_pos rfl]
      simp [hnone]
    · rw [if_neg hn, if_neg hn, lookupA_append, lookupA_cons,
        if_neg (fun he => hn he.symm)]
      cases lookupA m n <;> rfl

/-! ### Claim theorems -/

/-- C1: for every merged inventory and known-bad registry, `compare` emits a
finding `{name, version}` iff the name is a key of the inventory and of the
derived bad index and the version is a member of both the inventory's version
set and the index's bad-version set for that name; it emits exactly one
finding per such pair (the result has no duplicate findings), ordered by
inventory entry position and, within one name, by version set position. -/
theorem compare_emits_iff_once_ordered
    (I : Inventory) (K : KnownBad) (idx : List (String × List String))
    (fs : List Finding)
    (hidx : buildBadIndexAux [] K.packages = .ok idx)
    (hok : compare I K = .ok fs)
    (hkeys : (I.map Prod.fst).Nodup)
    (hvals : ∀ p ∈ I, p.2.Nodup) :
    (∀ f : Finding,
        f ∈ fs ↔
          (∃ vs, lookupA I f.name = some vs ∧ f.version ∈ vs) ∧
          ∃ bs, lookupA idx f.name = some bs ∧ f.version ∈ bs) ∧
    fs.Nodup ∧
    fs.Pairwise (fun f g => posLt (posIn I f) (posIn I g)) := by
  have hfs : compareCore idx I = fs := by
    unfold compare at hok
    rw [hidx] at hok
    simpa [Except.map] using hok
  subst hfs
  refine ⟨?_, compareCore_nodup hkeys hvals, compareCore_pairwise hkeys hvals⟩
  intro f
  rw [mem_compareCore]
  constructor
  · rintro ⟨p, hp, hn, hv, hbs⟩
    refine ⟨⟨p.2, ?_, hv⟩, hbs⟩
    have hpe : p = (f.name, p.2) := by rw [← hn]
    rw [hpe] at hp
    exact lookupA_of_mem_nodup hp hkeys
  · rintro ⟨⟨vs, hvs, hv⟩, hbs⟩
    exact ⟨(f.name, vs), lookupA_mem hvs, rfl, hv, hbs⟩

/-- Witness for C1 at a concrete inventory and registry. -/
theorem compare_emits_iff_once_ordered_witness :
    ((⟨"pkg-a", "1.0"⟩ : Finding) ∈ [(⟨"pkg-a", "1.0"⟩ : Finding)] ↔
      (∃ vs, lookupA [("pkg-a", ["1.0"])] "pkg-a" = some vs ∧ "1.0" ∈ vs) ∧
      ∃ bs, lookupA [("pkg-a", ["1.0"])] "pkg-a" = some bs ∧ "1.0" ∈ bs) ∧
    ([(⟨"pkg-a", "1.0"⟩ : Finding)].Nodup) :=
  have h := compare_emits_iff_once_ordered
    [("pkg-a", ["1.0"])] ⟨[⟨"pkg-a", some [JVal.str "1.0"]⟩]⟩
    [("pkg-a", ["1.0"])] [⟨"pkg-a", "1.0"⟩]
    rfl rfl (by decide) (by decide)
  ⟨h.1 ⟨"pkg-a", "1.0"⟩, h.2.1⟩

/-- C7 (counterexample): a registry element that supplies a name but no
`badVersions` field at all makes `compare` throw (`entry.badVersions` is
`undefined`, so `.map` raises a `TypeError`), so `compare` is not total over
such registries. -/
theorem compare_not_total_missing_badVersions :
    compare [("pkg-a", ["1.0"])] ⟨[⟨"pkg-a", none⟩]⟩ = .error () := rfl

/-- C7 (amended): `compare` is total over every registry whose elements each
supply a name and a (possibly empty) `badVersions` array, and an element
whose bad-version set is empty yields zero findings for that name regardless
of the installed versions; an element lacking the `badVersions` field
entirely makes `compare` throw instead. -/
theorem compare_total_and_empty_badVersions
    : (∀ (I : Inventory) (K : KnownBad),
        (∀ e ∈ K.packages, e.badVersions ≠ none) →
        ∃ fs, compare I K = .ok fs) ∧
      (∀ (I : Inventory) (K : KnownBad) (fs : List Finding) (n : String)
          (e : KnownBadEntry),
          compare I K = .ok fs →
          lastEntryFor K.packages n = some e →
          e.badVersions = some [] →
          ∀ f ∈ fs, f.name ≠ n) := by
  constructor
  · intro I K h
    obtain ⟨idx, hidx⟩ := @buildBadIndexAux_isOk [] _ h
    refine ⟨compareCore idx I, ?_⟩
    unfold compare
    rw [hidx]
    rfl
  · intro I K fs n e hok hlast hempty f hf hfn
    cases hb : buildBadIndexAux [] K.packages with
    | error u =>
      unfold compare at hok
      rw [hb] at hok
      cases hok
    | ok idx =>
      have hfs : compareCore idx I = fs := by
        unfold compare at hok
        rw [hb] at hok
        simpa [Except.map] using hok
      subst hfs
      obtain ⟨p, hp, hn, hv, bs, hbs, hvb⟩ := mem_compareCore.mp hf
      have hlk := buildBadIndexAux_lookup hb n
      rw [hlast] at hlk
      simp only [hempty] at hlk
      rw [hfn] at hbs
      rw [hlk] at hbs
      cases hbs
      cases hvb

/-- Witness for the amended C7 at concrete inputs. -/
theorem compare_total_and_empty_badVersions_witness :
    (∃ fs, compare [("pkg-a", ["1.0"])] ⟨[⟨"pkg-a", some []⟩]⟩ = .ok fs) ∧
    (∀ f ∈ ([] : List Finding), f.name ≠ "pkg-a") :=
  ⟨compare_total_and_empty_badVersions.1
      [("pkg-a", ["1.0"])] ⟨[⟨"pkg-a", some []⟩]⟩ (by decide),
    compare_total_and_empty_badVersions.2
      [("pkg-a", ["1.0"])] ⟨[⟨"pkg-a", some []⟩]⟩ [] "pkg-a" ⟨"pkg-a", some []⟩
      rfl rfl rfl⟩

theorem invMem_add (m : Inventory) (name : String) (jv : JVal)
    (n v : String) :
    invMem (add m name jv) n v ↔
      invMem m n v ∨ (n = name ∧ v = jv.toStr) := by
  unfold invMem
  rw [lookupA_add]
  by_cases hn : n = name
  · rw [if_pos hn, hn]
    constructor
    · rintro ⟨s, hs, hv⟩
      rw [Option.some.injEq] at hs
      rw [← hs] at hv
      rcases mem_setAdd.mp hv with hv2 | hv2
      · cases hl : lookupA m name with
        | none =>
          rw [hl] at hv2
          cases hv2
        | some s0 =>
          rw [hl] at hv2
          exact Or.inl ⟨s0, rfl, hv2⟩
      · exact Or.inr ⟨rfl, hv2⟩
    · rintro (⟨s, hs, hv⟩ | ⟨-, hveq⟩)
      · refine ⟨setAdd ((lookupA m name).getD []) jv.toStr, rfl, ?_⟩
        rw [hs]
        exact mem_setAdd.mpr (Or.inl hv)
      · exact ⟨_, rfl, mem_setAdd.mpr (Or.inr hveq)⟩
  · rw [if_neg hn]
    simp [hn]

/-- C6: all version matching is exact string equality after coercion to
string: `add` inserts `String(version)` (the set gains exactly the coerced
string), every bad version value is coerced with `String` before indexing
(the index set for a name holds exactly the coerced strings of the last
entry's `badVersions`), and `compare` matches exactly when the coerced
strings are equal — in particular the numeric bad version `1.5` matches the
installed version string "1.5". -/
theorem version_matching_is_coerced_string_equality :
    (∀ (m : Inventory) (name : String) (jv : JVal) (n v : String),
        invMem (add m name jv) n v ↔
          invMem m n v ∨ (n = name ∧ v = jv.toStr)) ∧
    (∀ (packages : List KnownBadEntry) (idx : List (String × List String))
        (n : String) (bs : List String),
        buildBadIndexAux [] packages = .ok idx →
        lookupA idx n = some bs →
        ∀ v, v ∈ bs ↔
          ∃ e, lastEntryFor packages n = some e ∧
            ∃ bvs, e.badVersions = some bvs ∧ ∃ jv ∈ bvs, jv.toStr = v) ∧
    compare [("pkg-a", ["1.5"])] ⟨[⟨"pkg-a", some [JVal.num "1.5"]⟩]⟩ =
      .ok [⟨"pkg-a", "1.5"⟩] := by
  refine ⟨fun m name jv n v => invMem_add m name jv n v, ?_, rfl⟩
  · intro packages idx n bs hok hlk v
    have hch := buildBadIndexAux_lookup hok n
    cases hlast : lastEntryFor packages n with
    | none =>
      rw [hlast] at hch
      simp only [] at hch
      rw [hch] at hlk
      cases hlk
    | some e =>
      rw [hlast] at hch
      simp only [] at hch
      rw [hch] at hlk
      have hbs : bs = (e.badVersions.getD []).map JVal.toStr := by
        cases hlk
        rfl
      have hmem : e ∈ packages := by
        have := List.mem_of_find?_eq_some hlast
        exact List.mem_reverse.mp this
      cases hbv : e.badVersions with
      | none =>
        have := @buildBadIndexAux_error [] _ _ hmem hbv
        rw [this] at hok
        cases hok
      | some bvs =>
        subst hbs
        rw [hbv]
        simp only [Option.getD_some, List.mem_map]
        constructor
        · rintro ⟨jv, hjv, rfl⟩
          exact ⟨e, rfl, bvs, hbv, jv, hjv, rfl⟩
        · rintro ⟨e2, he2, bvs2, hbvs2, jv, hjv, rfl⟩
          cases he2
          rw [hbv] at hbvs2
          cases hbvs2
          exact ⟨jv, hjv, rfl⟩

/-- Witness for C6 at a concrete numeric bad version. -/
theorem version_matching_is_coerced_string_equality_witness :
    (invMem (add [] "pkg-a" (JVal.num "1.5")) "pkg-a" "1.5" ↔
      invMem [] "pkg-a" "1.5" ∨ ("pkg-a" = "pkg-a" ∧ "1.5" = (JVal.num "1.5").toStr)) ∧
    (("1.5" : String) ∈ ["1.5"] ↔
      ∃ e, lastEntryFor [⟨"pkg-a", some [JVal.num "1.5"]⟩] "pkg-a" = some e ∧
        ∃ bvs, e.badVersions = some bvs ∧ ∃ jv ∈ bvs, jv.toStr = "1.5") :=
  ⟨version_matching_is_coerced_string_equality.1 [] "pkg-a" (JVal.num "1.5")
      "pkg-a" "1.5",
    version_matching_is_coerced_string_equality.2.1
      [⟨"pkg-a", some [JVal.num "1.5"]⟩] [("pkg-a", ["1.5"])] "pkg-a" ["1.5"]
      rfl rfl "1.5"⟩

/-- C2: the known-bad loader aborts (configuration error, exit code 2)
exactly when the data cannot be parsed or its top-level `packages` field is
absent or not an array: acceptance is equivalent to the parsed value having a
`packages` field holding an array, and the object `\x7b\x7d` (no `packages`
field) is rejected. -/
theorem loadKnownBad_rejects_iff :
    (∀ data : Option JSON,
        loadKnownBadRejects data = false ↔
          ∃ d, data = some d ∧
            ∃ xs, d.getField "packages" = some (JSON.arr xs)) ∧
    loadKnownBadRejects (some (JSON.obj [])) = true := by
  refine ⟨?_, rfl⟩
  intro data
  cases data with
  | none => simp [loadKnownBadRejects]
  | some d =>
    simp only [loadKnownBadRejects, Option.some.injEq]
    constructor
    · intro h
      rw [Bool.or_eq_false_iff] at h
      obtain ⟨htr, hpk⟩ := h
      refine ⟨d, rfl, ?_⟩
      cases hg : d.getField "packages" with
      | none => rw [hg] at hpk; cases hpk
      | some v =>
        rw [hg] at hpk
        cases v <;> simp_all [JSON.isArray]
    · rintro ⟨d2, hd2, xs, hxs⟩
      cases hd2
      rw [Bool.or_eq_false_iff]
      constructor
      · cases d <;> simp_all [JSON.getField, JSON.truthy]
      · rw [hxs]
        rfl


/-- C4: `uniqFindings` returns the subsequence of its input consisting of the
first occurrence of each identity key `name@version` in input order: it is a
sublist, each kept element is the first input element with its key, every
input key is represented, no two kept entries share a key, and applying
`uniqFindings` twice equals applying it once. -/
theorem uniqFindings_first_occurrence_subsequence :
    (∀ fs, (uniqFindings fs).Sublist fs) ∧
    (∀ fs g, g ∈ uniqFindings fs →
      fs.find? (fun x => findingKey x == findingKey g) = some g) ∧
    (∀ fs f, f ∈ fs → ∃ g ∈ uniqFindings fs, findingKey g = findingKey f) ∧
    (∀ fs, (uniqFindings fs).Pairwise
      (fun f g => findingKey f ≠ findingKey g)) ∧
    (∀ fs, uniqFindings (uniqFindings fs) = uniqFindings fs) := by
  refine ⟨fun fs => uniqFindingsAux_sublist [] fs,
    fun fs g hg => (uniqFindingsAux_first hg).2,
    fun fs f hf => uniqFindingsAux_covers hf (List.not_mem_nil _),
    fun fs => uniqFindingsAux_pairwise [] fs,
    fun fs => ?_⟩
  exact uniqFindingsAux_of_pairwise (fun g hg => List.not_mem_nil _)
    (uniqFindingsAux_pairwise [] fs)

/-- Witness for C4 on a concrete duplicated finding list. -/
theorem uniqFindings_first_occurrence_subsequence_witness :
    ([⟨"a", "1"⟩, ⟨"a", "1"⟩] : List Finding).find?
        (fun x => findingKey x == findingKey ⟨"a", "1"⟩) = some ⟨"a", "1"⟩ ∧
    (∃ g ∈ uniqFindings [⟨"a", "1"⟩, ⟨"a", "1"⟩],
      findingKey g = findingKey ⟨"a", "1"⟩) :=
  ⟨uniqFindings_first_occurrence_subsequence.2.1
      [⟨"a", "1"⟩, ⟨"a", "1"⟩] ⟨"a", "1"⟩ (by decide),
    uniqFindings_first_occurrence_subsequence.2.2.1
      [⟨"a", "1"⟩, ⟨"a", "1"⟩] ⟨"a", "1"⟩ (by decide)⟩


/-! ### Store lemmas for the merge step -/

theorem heapAdd_length (hh : Heap) (tr : Nat) (v : String) :
    (heapAdd hh tr v).length = hh.length :=
  List.length_set hh tr _

theorem heapGet_heapAdd_ne (hh : Heap) (tr : Nat) (v : String) {x : Nat}
    (hx : x ≠ tr) : heapGet (heapAdd hh tr v) x = heapGet hh x := by
  unfold heapGet heapAdd
  rw [List.getD_eq_getElem?_getD, List.getD_eq_getElem?_getD,
    List.getElem?_set_ne (fun he => hx he.symm)]

theorem heapGet_heapAdd_self (hh : Heap) (tr : Nat) (v : String)
    (htr : tr < hh.length) :
    heapGet (heapAdd hh tr v) tr = setAdd (heapGet hh tr) v := by
  unfold heapGet heapAdd
  rw [List.getD_eq_getElem?_getD, List.getD_eq_getElem?_getD,
    List.getElem?_set_self htr]
  simp [heapGet, List.getD_eq_getElem?_getD]

theorem foldl_heapAdd_length (vs : List String) (hh : Heap) (tr : Nat) :
    (vs.foldl (fun h2 v => heapAdd h2 tr v) hh).length = hh.length := by
  induction vs generalizing hh with
  | nil => rfl
  | cons v rest ih => rw [List.foldl_cons, ih, heapAdd_length]

theorem heapGet_foldl_heapAdd_ne (vs : List String) (hh : Heap) (tr : Nat)
    {x : Nat} (hx : x ≠ tr) :
    heapGet (vs.foldl (fun h2 v => heapAdd h2 tr v) hh) x = heapGet hh x := by
  induction vs generalizing hh with
  | nil => rfl
  | cons v rest ih => rw [List.foldl_cons, ih, heapGet_heapAdd_ne _ _ _ hx]

theorem heapGet_foldl_heapAdd_self (vs : List String) (hh : Heap) (tr : Nat)
    (htr : tr < hh.length) :
    heapGet (vs.foldl (fun h2 v => heapAdd h2 tr v) hh) tr =
      vs.foldl setAdd (heapGet hh tr) := by
  induction vs generalizing hh with
  | nil => rfl
  | cons v rest ih =>
    rw [List.foldl_cons, List.foldl_cons, ih, heapGet_heapAdd_self _ _ _ htr]
    rw [heapAdd_length]
    exact htr

theorem heapGet_append_lt (hh : Heap) (s : List String) {x : Nat}
    (hx : x < hh.length) : heapGet (hh ++ [s]) x = heapGet hh x := by
  unfold heapGet
  rw [List.getD_eq_getElem?_getD, List.getD_eq_getElem?_getD,
    List.getElem?_append_left hx]

theorem heapGet_append_self (hh : Heap) (s : List String) :
    heapGet (hh ++ [s]) hh.length = s := by
  unfold heapGet
  rw [List.getD_eq_getElem?_getD]
  rw [List.getElem?_append_right (Nat.le_refl _)]
  simp

theorem hmapGet_append_ne (m : HMap) (name : String) (r : Nat) {n : String}
    (hn : n ≠ name) : hmapGet (m ++ [(name, r)]) n = hmapGet m n := by
  unfold hmapGet
  rw [lookupA_append, lookupA_cons, if_neg (fun he => hn he.symm)]
  cases lookupA m n <;> rfl

theorem hmapGet_append_self (m : HMap) (name : String) (r : Nat)
    (hnone : hmapGet m name = none) :
    hmapGet (m ++ [(name, r)]) name = some r := by
  unfold hmapGet
  unfold hmapGet at hnone
  rw [lookupA_append, hnone, lookupA_cons, if_pos rfl]
  rfl

theorem hmapHas_iff (m : HMap) (n : String) :
    hmapHas m n = true ↔ (hmapGet m n).isSome = true := by
  unfold hmapHas hmapGet
  rw [List.any_eq_true, lookupA_isSome_iff]
  constructor
  · rintro ⟨p, hp, hk⟩
    exact ⟨p, hp, by simpa using hk⟩
  · rintro ⟨p, hp, hk⟩
    exact ⟨p, hp, by simpa using hk⟩

theorem hmapGet_none_of_not_has {m : HMap} {n : String}
    (h : hmapHas m n = false) : hmapGet m n = none := by
  cases hg : hmapGet m n with
  | none => rfl
  | some r =>
    have : hmapHas m n = true := (hmapHas_iff m n).mpr (by rw [hg]; rfl)
    rw [h] at this
    cases this

theorem refs_ne_of_keys_ne {m : HMap} (hrefs : (refsOf m).Nodup)
    {n1 n2 : String} {r1 r2 : Nat} (h1 : (n1, r1) ∈ m) (h2 : (n2, r2) ∈ m)
    (hne : n1 ≠ n2) : r1 ≠ r2 := by
  intro he
  have hrefs2 : (m.map (fun p : String × Nat => p.2)).Nodup := hrefs
  have hinj := List.inj_on_of_nodup_map hrefs2
  have heq := hinj h1 h2 he
  exact hne (by simpa using congrArg Prod.fst heq)

theorem mergeInto_cons (h : Heap) (merged : HMap) (name : String) (vr : Nat)
    (rest : List (String × Nat)) :
    mergeInto h merged ((name, vr) :: rest) =
      if hmapHas merged name = true then
        mergeInto
          ((heapGet h vr).foldl
            (fun hh v => heapAdd hh ((hmapGet merged name).getD 0) v) h)
          merged rest
      else
        mergeInto
          ((heapGet h vr).foldl (fun hh v => heapAdd hh h.length v)
            (h ++ [[]]))
          (merged ++ [(name, h.length)]) rest := by
  by_cases hhas : hmapHas merged name = true
  · simp only [mergeInto, hhas, if_true]
  · simp only [mergeInto, hhas, Bool.false_eq_true, if_false]
    rw [hmapGet_append_self _ _ _
      (hmapGet_none_of_not_has (Bool.not_eq_true _ ▸ hhas))]
    rfl


/-- Full characterization of the merge loop: lengths grow, untouched store
positions are preserved, names absent from `nm` keep their entry and set, a
name present in both has `nm`'s versions added in place into the set `merged`
(shared with `lock`) refers to, and a name only in `nm` gets a fresh set. -/
theorem mergeInto_spec (rest : List (String × Nat)) :
    ∀ (h : Heap) (merged : HMap),
    (∀ r ∈ refsOf merged, r < h.length) →
    (refsOf merged).Nodup →
    (keysOf merged).Nodup →
    (keysOf rest).Nodup →
    (∀ p ∈ rest, p.2 < h.length ∧ p.2 ∉ refsOf merged) →
    h.length ≤ (mergeInto h merged rest).1.length ∧
    (∀ r, r < h.length → r ∉ refsOf merged →
      heapGet (mergeInto h merged rest).1 r = heapGet h r) ∧
    (∀ n, n ∉ keysOf rest →
      hmapGet (mergeInto h merged rest).2 n = hmapGet merged n ∧
      ∀ r, hmapGet merged n = some r →
        heapGet (mergeInto h merged rest).1 r = heapGet h r) ∧
    (∀ n vrn, (n, vrn) ∈ rest →
      (∀ r, hmapGet merged n = some r →
        hmapGet (mergeInto h merged rest).2 n = some r ∧
        heapGet (mergeInto h merged rest).1 r =
          (heapGet h vrn).foldl setAdd (heapGet h r)) ∧
      (hmapGet merged n = none →
        ∃ r2, h.length ≤ r2 ∧
          hmapGet (mergeInto h merged rest).2 n = some r2 ∧
          heapGet (mergeInto h merged rest).1 r2 =
            (heapGet h vrn).foldl setAdd [])) := by
  induction rest with
  | nil =>
    intro h merged _ _ _ _ _
    exact ⟨Nat.le_refl _, fun r _ _ => rfl,
      fun n _ => ⟨rfl, fun r _ => rfl⟩,
      fun n vrn hmem => absurd hmem (List.not_mem_nil _)⟩
  | cons p rest2 ih =>
    obtain ⟨name, vr0⟩ := p
    intro h merged hrv hrnd hknd hkrnd hre
    simp only [keysOf, List.map_cons, List.nodup_cons] at hkrnd
    obtain ⟨hkrest, hkrnd2⟩ := hkrnd
    have hhead := hre (name, vr0) (List.mem_cons_self _ _)
    have hvr0lt : vr0 < h.length := hhead.1
    have hvr0ref : vr0 ∉ refsOf merged := hhead.2
    rw [mergeInto_cons]
    by_cases hhas : hmapHas merged name = true
    · rw [if_pos hhas]
      obtain ⟨r, hr⟩ : ∃ r, hmapGet merged name = some r := by
        have hi := (hmapHas_iff merged name).mp hhas
        cases hg : hmapGet merged name with
        | none => rw [hg] at hi; cases hi
        | some r => exact ⟨r, rfl⟩
      rw [hr]
      simp only [Option.getD_some]
      have hrmem : (name, r) ∈ merged := lookupA_mem hr
      have hrref : r ∈ refsOf merged :=
        List.mem_map_of_mem (fun p => p.2) hrmem
      have hrlt : r < h.length := hrv r hrref
      have h2len :
          ((heapGet h vr0).foldl (fun hh v => heapAdd hh r v) h).length =
            h.length := foldl_heapAdd_length _ _ _
      have h2ne : ∀ x, x ≠ r →
          heapGet ((heapGet h vr0).foldl (fun hh v => heapAdd hh r v) h) x =
            heapGet h x :=
        fun x hx => heapGet_foldl_heapAdd_ne _ _ _ hx
      have h2self :
          heapGet ((heapGet h vr0).foldl (fun hh v => heapAdd hh r v) h) r =
            (heapGet h vr0).foldl setAdd (heapGet h r) :=
        heapGet_foldl_heapAdd_self _ _ _ hrlt
      obtain ⟨B1, B2, B3, B4⟩ :=
        ih ((heapGet h vr0).foldl (fun hh v => heapAdd hh r v) h) merged
          (fun r2 hr2 => by rw [h2len]; exact hrv r2 hr2)
          hrnd hknd hkrnd2
          (fun q hq => ⟨by rw [h2len]; exact (hre q (List.mem_cons_of_mem _ hq)).1,
            (hre q (List.mem_cons_of_mem _ hq)).2⟩)
      refine ⟨?_, ?_, ?_, ?_⟩
      · exact Nat.le_trans (Nat.le_of_eq h2len.symm) B1
      · intro r2 hlt hnref
        have hner : r2 ≠ r := fun he => hnref (he ▸ hrref)
        rw [B2 r2 (by rw [h2len]; exact hlt) hnref, h2ne r2 hner]
      · intro n hn
        simp only [keysOf, List.map_cons, List.mem_cons, not_or] at hn
        have hn2 : n ∉ keysOf rest2 := hn.2
        have hnname : n ≠ name := fun he => hn.1 (by rw [he])
        obtain ⟨C1, C2⟩ := B3 n hn2
        refine ⟨C1, ?_⟩
        intro r2 hr2
        have hner : r2 ≠ r :=
          refs_ne_of_keys_ne hrnd (lookupA_mem hr2) hrmem hnname
        rw [C2 r2 hr2, h2ne r2 hner]
      · intro n vrn hmem
        rcases List.mem_cons.mp hmem with heq | hmem2
        · injection heq with e1 e2
          subst e1
          subst e2
          obtain ⟨C1, C2⟩ := B3 n hkrest
          constructor
          · intro r2 hr2
            rw [hr] at hr2
            injection hr2 with e3
            subst e3
            refine ⟨by rw [C1, hr], ?_⟩
            rw [C2 r hr, h2self]
          · intro hnone
            rw [hr] at hnone
            cases hnone
        · have hnname : n ≠ name := by
            intro he
            refine hkrest ?_
            rw [← he]
            exact List.mem_map_of_mem (fun p => p.1) hmem2
          obtain ⟨D1, D2⟩ := B4 n vrn hmem2
          have hvrn := hre (n, vrn) (List.mem_cons_of_mem _ hmem2)
          have hvrn_ne_r : vrn ≠ r := fun he => hvrn.2 (he ▸ hrref)
          constructor
          · intro r2 hr2
            obtain ⟨E1, E2⟩ := D1 r2 hr2
            have hner : r2 ≠ r :=
              refs_ne_of_keys_ne hrnd (lookupA_mem hr2) hrmem hnname
            refine ⟨E1, ?_⟩
            rw [E2, h2ne vrn hvrn_ne_r, h2ne r2 hner]
          · intro hnone
            obtain ⟨r2, hr2ge, hr2map, hr2heap⟩ := D2 hnone
            rw [h2len] at hr2ge
            refine ⟨r2, hr2ge, hr2map, ?_⟩
            rw [hr2heap, h2ne vrn hvrn_ne_r]
    · rw [if_neg hhas]
      have hnone : hmapGet merged name = none :=
        hmapGet_none_of_not_has (Bool.not_eq_true _ ▸ hhas)
      have hnamekeys : name ∉ keysOf merged := by
        intro hks
        simp only [keysOf, List.mem_map] at hks
        obtain ⟨q, hq, hqn⟩ := hks
        have : (hmapGet merged name).isSome = true := by
          rw [hmapGet]
          rw [lookupA_isSome_iff]
          exact ⟨q, hq, hqn⟩
        rw [hnone] at this
        cases this
      have h1len : (h ++ ([] : List String) :: []).length = h.length + 1 := by
        simp
      have h2len :
          ((heapGet h vr0).foldl (fun hh v => heapAdd hh h.length v)
            (h ++ [[]])).length = h.length + 1 := by
        rw [foldl_heapAdd_length]
        simp
      have h2ne : ∀ x, x ≠ h.length →
          heapGet ((heapGet h vr0).foldl (fun hh v => heapAdd hh h.length v)
            (h ++ [[]])) x = heapGet (h ++ [[]]) x :=
        fun x hx => heapGet_foldl_heapAdd_ne _ _ _ hx
      have h2lt : ∀ x, x < h.length →
          heapGet ((heapGet h vr0).foldl (fun hh v => heapAdd hh h.length v)
            (h ++ [[]])) x = heapGet h x := by
        intro x hx
        rw [h2ne x (Nat.ne_of_lt hx), heapGet_append_lt _ _ hx]
      have h2self :
          heapGet ((heapGet h vr0).foldl (fun hh v => heapAdd hh h.length v)
            (h ++ [[]])) h.length = (heapGet h vr0).foldl setAdd [] := by
        rw [heapGet_foldl_heapAdd_self _ _ _ (by simp), heapGet_append_self]
      have hm2get_name :
          hmapGet (merged ++ [(name, h.length)]) name = some h.length :=
        hmapGet_append_self _ _ _ hnone
      have hm2get_ne : ∀ n, n ≠ name →
          hmapGet (merged ++ [(name, h.length)]) n = hmapGet merged n :=
        fun n hn => hmapGet_append_ne _ _ _ hn
      have hrefs2 : refsOf (merged ++ [(name, h.length)]) =
          refsOf merged ++ [h.length] := by
        simp [refsOf]
      have hkeys2 : keysOf (merged ++ [(name, h.length)]) =
          keysOf merged ++ [name] := by
        simp [keysOf]
      obtain ⟨B1, B2, B3, B4⟩ :=
        ih ((heapGet h vr0).foldl (fun hh v => heapAdd hh h.length v)
            (h ++ [[]]))
          (merged ++ [(name, h.length)])
          (by
            intro r2 hr2
            rw [h2len]
            rw [hrefs2] at hr2
            rcases List.mem_append.mp hr2 with hr2 | hr2
            · exact Nat.lt_succ_of_lt (hrv r2 hr2)
            · simp only [List.mem_singleton] at hr2
              subst hr2
              exact Nat.lt_succ_self _)
          (by
            rw [hrefs2]
            refine List.Nodup.append hrnd (List.nodup_singleton _) ?_
            intro x hx hx2
            simp only [List.mem_singleton] at hx2
            subst hx2
            exact Nat.lt_irrefl _ (hrv _ hx))
          (by
            rw [hkeys2]
            refine List.Nodup.append hknd (List.nodup_singleton _) ?_
            intro x hx hx2
            simp only [List.mem_singleton] at hx2
            subst hx2
            exact hnamekeys hx)
          hkrnd2
          (by
            intro q hq
            have hq2 := hre q (List.mem_cons_of_mem _ hq)
            refine ⟨by rw [h2len]; exact Nat.lt_succ_of_lt hq2.1, ?_⟩
            rw [hrefs2]
            intro hmem3
            rcases List.mem_append.mp hmem3 with hmem3 | hmem3
            · exact hq2.2 hmem3
            · simp only [List.mem_singleton] at hmem3
              exact Nat.lt_irrefl _ (hmem3 ▸ hq2.1))
      refine ⟨?_, ?_, ?_, ?_⟩
      · rw [h2len] at B1
        exact Nat.le_trans (Nat.le_succ _) B1
      · intro r2 hlt hnref
        have hnref2 : r2 ∉ refsOf (merged ++ [(name, h.length)]) := by
          rw [hrefs2]
          intro hmem3
          rcases List.mem_append.mp hmem3 with hmem3 | hmem3
          · exact hnref hmem3
          · simp only [List.mem_singleton] at hmem3
            exact Nat.lt_irrefl _ (hmem3 ▸ hlt)
        rw [B2 r2 (by rw [h2len]; exact Nat.lt_succ_of_lt hlt) hnref2,
          h2lt r2 hlt]
      · intro n hn
        simp only [keysOf, List.map_cons, List.mem_cons, not_or] at hn
        have hn2 : n ∉ keysOf rest2 := hn.2
        have hnname : n ≠ name := fun he => hn.1 (by rw [he])
        obtain ⟨C1, C2⟩ := B3 n hn2
        refine ⟨by rw [C1, hm2get_ne n hnname], ?_⟩
        intro r2 hr2
        have hr2lt : r2 < h.length :=
          hrv r2 (List.mem_map_of_mem (fun p => p.2) (lookupA_mem hr2))
        rw [C2 r2 (by rw [hm2get_ne n hnname]; exact hr2), h2lt r2 hr2lt]
      · intro n vrn hmem
        rcases List.mem_cons.mp hmem with heq | hmem2
        · injection heq with e1 e2
          subst e1
          subst e2
          obtain ⟨C1, C2⟩ := B3 n hkrest
          constructor
          · intro r2 hr2
            rw [hnone] at hr2
            cases hr2
          · intro _
            refine ⟨h.length, Nat.le_refl _, by rw [C1, hm2get_name], ?_⟩
            rw [C2 h.length hm2get_name, h2self]
        · have hnname : n ≠ name := by
            intro he
            refine hkrest ?_
            rw [← he]
            exact List.mem_map_of_mem (fun p => p.1) hmem2
          obtain ⟨D1, D2⟩ := B4 n vrn hmem2
          have hvrn := hre (n, vrn) (List.mem_cons_of_mem _ hmem2)
          constructor
          · intro r2 hr2
            obtain ⟨E1, E2⟩ :=
              D1 r2 (by rw [hm2get_ne n hnname]; exact hr2)
            have hr2lt : r2 < h.length :=
              hrv r2 (List.mem_map_of_mem (fun p => p.2) (lookupA_mem hr2))
            refine ⟨E1, ?_⟩
            rw [E2, h2lt vrn hvrn.1, h2lt r2 hr2lt]
          · intro hnone2
            obtain ⟨r2, hr2ge, hr2map, hr2heap⟩ :=
              D2 (by rw [hm2get_ne n hnname]; exact hnone2)
            rw [h2len] at hr2ge
            refine ⟨r2, Nat.le_trans (Nat.le_succ _) hr2ge, hr2map, ?_⟩
            rw [hr2heap, h2lt vrn hvrn.1]


theorem not_key_of_get_none {m : HMap} {n : String}
    (hg : hmapGet m n = none) : n ∉ keysOf m := by
  intro hks
  simp only [keysOf, List.mem_map] at hks
  obtain ⟨q, hq, hqn⟩ := hks
  exact lookupA_eq_none_iff.mp hg q hq hqn

theorem merge_mem_iff (h : Heap) (A B : HMap)
    (hAv : ∀ r ∈ refsOf A, r < h.length) (hAr : (refsOf A).Nodup)
    (hAk : (keysOf A).Nodup) (hBk : (keysOf B).Nodup)
    (hBdisj : ∀ p ∈ B, p.2 < h.length ∧ p.2 ∉ refsOf A) :
    ∀ n v, hInvMem (merge h A B).1 (merge h A B).2 n v ↔
      hInvMem h A n v ∨ hInvMem h B n v := by
  unfold merge
  obtain ⟨S1, S2, S3, S4⟩ := mergeInto_spec B h A hAv hAr hAk hBk hBdisj
  intro n v
  cases hgB : hmapGet B n with
  | none =>
    obtain ⟨C1, C2⟩ := S3 n (not_key_of_get_none hgB)
    constructor
    · rintro ⟨r, hr, hv⟩
      rw [C1] at hr
      refine Or.inl ⟨r, hr, ?_⟩
      rw [← C2 r hr]
      exact hv
    · rintro (⟨r, hr, hv⟩ | ⟨r, hr, hv⟩)
      · refine ⟨r, by rw [C1]; exact hr, ?_⟩
        rw [C2 r hr]
        exact hv
      · rw [hgB] at hr
        cases hr
  | some vr =>
    have hmemB : (n, vr) ∈ B := lookupA_mem hgB
    obtain ⟨D1, D2⟩ := S4 n vr hmemB
    have hBmem : hInvMem h B n v ↔ v ∈ heapGet h vr := by
      constructor
      · rintro ⟨r, hr, hv⟩
        rw [hgB] at hr
        injection hr with e
        subst e
        exact hv
      · intro hv
        exact ⟨vr, hgB, hv⟩
    cases hgA : hmapGet A n with
    | some r =>
      obtain ⟨E1, E2⟩ := D1 r hgA
      constructor
      · rintro ⟨r2, hr2, hv⟩
        rw [E1] at hr2
        injection hr2 with e
        subst e
        rw [E2] at hv
        rcases mem_foldl_setAdd.mp hv with hv | hv
        · exact Or.inl ⟨r, hgA, hv⟩
        · exact Or.inr (hBmem.mpr hv)
      · rintro (⟨r2, hr2, hv⟩ | hv2)
        · rw [hgA] at hr2
          injection hr2 with e
          subst e
          refine ⟨r, E1, ?_⟩
          rw [E2]
          exact mem_foldl_setAdd.mpr (Or.inl hv)
        · refine ⟨r, E1, ?_⟩
          rw [E2]
          exact mem_foldl_setAdd.mpr (Or.inr (hBmem.mp hv2))
    | none =>
      obtain ⟨r2, hr2ge, hr2map, hr2heap⟩ := D2 hgA
      constructor
      · rintro ⟨r3, hr3, hv⟩
        rw [hr2map] at hr3
        injection hr3 with e
        subst e
        rw [hr2heap] at hv
        rcases mem_foldl_setAdd.mp hv with hv | hv
        · cases hv
        · exact Or.inr (hBmem.mpr hv)
      · rintro (⟨r3, hr3, hv⟩ | hv2)
        · rw [hgA] at hr3
          cases hr3
        · refine ⟨r2, hr2map, ?_⟩
          rw [hr2heap]
          exact mem_foldl_setAdd.mpr (Or.inr (hBmem.mp hv2))

theorem merge_dom_iff (h : Heap) (A B : HMap)
    (hAv : ∀ r ∈ refsOf A, r < h.length) (hAr : (refsOf A).Nodup)
    (hAk : (keysOf A).Nodup) (hBk : (keysOf B).Nodup)
    (hBdisj : ∀ p ∈ B, p.2 < h.length ∧ p.2 ∉ refsOf A) :
    ∀ n, (hmapGet (merge h A B).2 n).isSome = true ↔
      (hmapGet A n).isSome = true ∨ (hmapGet B n).isSome = true := by
  unfold merge
  obtain ⟨S1, S2, S3, S4⟩ := mergeInto_spec B h A hAv hAr hAk hBk hBdisj
  intro n
  cases hgB : hmapGet B n with
  | none =>
    obtain ⟨C1, C2⟩ := S3 n (not_key_of_get_none hgB)
    rw [C1]
    simp
  | some vr =>
    have hmemB : (n, vr) ∈ B := lookupA_mem hgB
    obtain ⟨D1, D2⟩ := S4 n vr hmemB
    cases hgA : hmapGet A n with
    | some r =>
      obtain ⟨E1, E2⟩ := D1 r hgA
      rw [E1]
      simp
    | none =>
      obtain ⟨r2, hr2ge, hr2map, hr2heap⟩ := D2 hgA
      rw [hr2map]
      simp

/-- C5: the merge step of `main` returns the key-wise union of the two
inventories: a name is present in the result iff it is present in either
input, a version belongs to the result's set for a name iff it belongs to
either input's set for that name, and consequently merging in either order
yields extensionally equal name-to-version-set mappings. -/
theorem merge_is_keywise_union_and_commutes (h : Heap) (A B : HMap)
    (hAv : ∀ r ∈ refsOf A, r < h.length) (hAr : (refsOf A).Nodup)
    (hAk : (keysOf A).Nodup)
    (hBv : ∀ r ∈ refsOf B, r < h.length) (hBr : (refsOf B).Nodup)
    (hBk : (keysOf B).Nodup)
    (hdisj : ∀ r ∈ refsOf A, r ∉ refsOf B) :
    (∀ n v, hInvMem (merge h A B).1 (merge h A B).2 n v ↔
      hInvMem h A n v ∨ hInvMem h B n v) ∧
    (∀ n, (hmapGet (merge h A B).2 n).isSome = true ↔
      (hmapGet A n).isSome = true ∨ (hmapGet B n).isSome = true) ∧
    (∀ n v, hInvMem (merge h A B).1 (merge h A B).2 n v ↔
      hInvMem (merge h B A).1 (merge h B A).2 n v) := by
  have hBdisj : ∀ p ∈ B, p.2 < h.length ∧ p.2 ∉ refsOf A := by
    intro p hp
    refine ⟨hBv p.2 (List.mem_map_of_mem (fun q => q.2) hp), ?_⟩
    intro hmem
    exact hdisj p.2 hmem (List.mem_map_of_mem (fun q => q.2) hp)
  have hAdisj : ∀ p ∈ A, p.2 < h.length ∧ p.2 ∉ refsOf B := by
    intro p hp
    refine ⟨hAv p.2 (List.mem_map_of_mem (fun q => q.2) hp), ?_⟩
    exact hdisj p.2 (List.mem_map_of_mem (fun q => q.2) hp)
  refine ⟨merge_mem_iff h A B hAv hAr hAk hBk hBdisj,
    merge_dom_iff h A B hAv hAr hAk hBk hBdisj, ?_⟩
  intro n v
  rw [merge_mem_iff h A B hAv hAr hAk hBk hBdisj n v,
    merge_mem_iff h B A hBv hBr hBk hAk hAdisj n v]
  exact Or.comm

/-- Witness for C5 on concrete disjoint inventories. -/
theorem merge_is_keywise_union_and_commutes_witness :
    (∀ n v, hInvMem (merge [["1"], ["2"]] [("a", 0)] [("b", 1)]).1
        (merge [["1"], ["2"]] [("a", 0)] [("b", 1)]).2 n v ↔
      hInvMem [["1"], ["2"]] [("a", 0)] n v ∨
        hInvMem [["1"], ["2"]] [("b", 1)] n v) ∧
    (∀ n, (hmapGet (merge [["1"], ["2"]] [("a", 0)] [("b", 1)]).2 n).isSome =
        true ↔
      (hmapGet [("a", 0)] n).isSome = true ∨
        (hmapGet [("b", 1)] n).isSome = true) ∧
    (∀ n v, hInvMem (merge [["1"], ["2"]] [("a", 0)] [("b", 1)]).1
        (merge [["1"], ["2"]] [("a", 0)] [("b", 1)]).2 n v ↔
      hInvMem (merge [["1"], ["2"]] [("b", 1)] [("a", 0)]).1
        (merge [["1"], ["2"]] [("b", 1)] [("a", 0)]).2 n v) :=
  merge_is_keywise_union_and_commutes [["1"], ["2"]] [("a", 0)] [("b", 1)]
    (by decide) (by decide) (by decide) (by decide) (by decide) (by decide)
    (by decide)

/-- C3 (counterexample): merging does observably mutate the lockfile input.
With the store holding lock's set `["1"]` at reference 0 and nm's set
`["2"]` at reference 1, lock maps "a" to reference 0 and after the merge the
set at reference 0 is `["1", "2"]`, not the original `["1"]` — `new Map(lock)`
copies the entries but shares the `Set` objects. -/
theorem merge_mutates_lock_input :
    hmapGet ([("a", 0)] : HMap) "a" = some 0 ∧
    heapGet ([["1"], ["2"]] : Heap) 0 = ["1"] ∧
    heapGet (merge [["1"], ["2"]] [("a", 0)] [("a", 1)]).1 0 = ["1", "2"] ∧
    (["1", "2"] : List String) ≠ ["1"] :=
  ⟨rfl, rfl, rfl, by decide⟩

/-- C3 (amended): the merge step does not observably mutate the
`node_modules` input — every set referenced from `nm` is unchanged — but it
mutates the lockfile input's sets in place: for a name present in both
inventories, `nm`'s versions are folded into the very set object `lock`'s
entry references. -/
theorem merge_preserves_nm_mutates_lock (h : Heap) (lock nm : HMap)
    (hLv : ∀ r ∈ refsOf lock, r < h.length) (hLr : (refsOf lock).Nodup)
    (hLk : (keysOf lock).Nodup) (hNk : (keysOf nm).Nodup)
    (hNdisj : ∀ p ∈ nm, p.2 < h.length ∧ p.2 ∉ refsOf lock) :
    (∀ n r, (n, r) ∈ nm → heapGet (merge h lock nm).1 r = heapGet h r) ∧
    (∀ n r vr, hmapGet lock n = some r → hmapGet nm n = some vr →
      heapGet (merge h lock nm).1 r =
        (heapGet h vr).foldl setAdd (heapGet h r)) := by
  unfold merge
  obtain ⟨S1, S2, S3, S4⟩ := mergeInto_spec nm h lock hLv hLr hLk hNk hNdisj
  constructor
  · intro n r hmem
    have hp := hNdisj (n, r) hmem
    exact S2 r hp.1 hp.2
  · intro n r vr hlock hnm
    exact ((S4 n vr (lookupA_mem hnm)).1 r hlock).2

/-- Witness for the amended C3 on concrete overlapping inventories. -/
theorem merge_preserves_nm_mutates_lock_witness :
    (heapGet (merge [["1"], ["2"]] [("a", 0)] [("a", 1)]).1 1 =
      heapGet [["1"], ["2"]] 1) ∧
    (heapGet (merge [["1"], ["2"]] [("a", 0)] [("a", 1)]).1 0 =
      (heapGet [["1"], ["2"]] 1).foldl setAdd (heapGet [["1"], ["2"]] 0)) :=
  have hthm := merge_preserves_nm_mutates_lock [["1"], ["2"]]
    [("a", 0)] [("a", 1)] (by decide) (by decide) (by decide) (by decide)
    (by decide)
  ⟨hthm.1 "a" 1 (by decide), hthm.2 "a" 0 1 rfl rfl⟩


/-! ### The filesystem walk: depth bound -/

theorem walk_cutoff (fs : FS) (dir : List String) (depth : Nat)
    (hits : Inventory) (h : depth > 6) : walk fs dir depth hits = (hits, []) := by
  rw [walk]
  simp [h]

theorem walk_log_bound_fuel : ∀ (k depth : Nat), 7 - depth ≤ k →
    ∀ (fs : FS) (dir : List String) (hits : Inventory) (e : List String × Nat),
      e ∈ (walk fs dir depth hits).2 → depth ≤ e.2 ∧ e.2 ≤ 6 := by
  intro k
  induction k with
  | zero =>
    intro depth hd fs dir hits e he
    have hgt : depth > 6 := by omega
    rw [walk_cutoff fs dir depth hits hgt] at he
    cases he
  | succ k ih =>
    intro depth hd fs dir hits e he
    by_cases hgt : depth > 6
    · rw [walk_cutoff fs dir depth hits hgt] at he
      cases he
    · have hle : depth ≤ 6 := Nat.le_of_not_lt hgt
      have ihw : ∀ (dir2 : List String) (hits2 : Inventory)
          (e2 : List String × Nat),
          e2 ∈ (walk fs dir2 (depth + 1) hits2).2 →
          depth ≤ e2.2 ∧ e2.2 ≤ 6 := by
        intro dir2 hits2 e2 he2
        have hb := ih (depth + 1) (by omega) fs dir2 hits2 e2 he2
        exact ⟨Nat.le_of_succ_le hb.1, hb.2⟩
      have hws : ∀ (sd : List String) (ents : List FSEnt)
          (hits2 : Inventory) (e2 : List String × Nat),
          e2 ∈ (walkScoped fs sd depth ents hits2 hle).2 →
          depth ≤ e2.2 ∧ e2.2 ≤ 6 := by
        intro sd ents
        induction ents with
        | nil =>
          intro hits2 e2 he2
          rw [walkScoped] at he2
          dsimp only at he2
          cases he2
        | cons sEnt srest sih =>
          intro hits2 e2 he2
          rw [walkScoped] at he2
          dsimp only at he2
          by_cases hdir : !sEnt.isDir
          · rw [if_pos hdir] at he2
            exact sih hits2 e2 he2
          · rw [if_neg hdir] at he2
            by_cases hex : fs.existsDir (sd ++ [sEnt.name] ++ ["node_modules"])
            · rw [if_pos hex] at he2
              simp only [List.mem_append] at he2
              rcases he2 with he2 | he2
              · exact ihw _ _ e2 he2
              · exact sih _ e2 he2
            · rw [if_neg hex] at he2
              exact sih _ e2 he2
      have hwe : ∀ (dir2 : List String) (ents : List FSEnt)
          (hits2 : Inventory) (e2 : List String × Nat),
          e2 ∈ (walkEntries fs dir2 depth ents hits2 hle).2 →
          depth ≤ e2.2 ∧ e2.2 ≤ 6 := by
        intro dir2 ents
        induction ents with
        | nil =>
          intro hits2 e2 he2
          rw [walkEntries] at he2
          dsimp only at he2
          cases he2
        | cons ent erest eih =>
          intro hits2 e2 he2
          rw [walkEntries] at he2
          dsimp only at he2
          by_cases hskip : (!ent.isDir || strStartsWith ent.name ".") = true
          · rw [if_pos hskip] at he2
            exact eih hits2 e2 he2
          · rw [if_neg hskip] at he2
            by_cases hat : strStartsWith ent.name "@" = true
            · rw [if_pos hat] at he2
              cases hrd : fs.readdir (dir2 ++ [ent.name]) with
              | none =>
                rw [hrd] at he2
                dsimp only at he2
                simp only [List.mem_cons] at he2
                rcases he2 with he2 | he2
                · subst he2
                  exact ⟨Nat.le_refl _, hle⟩
                · exact eih _ e2 he2
              | some scopedEnts =>
                rw [hrd] at he2
                dsimp only at he2
                simp only [List.mem_cons, List.mem_append] at he2
                rcases he2 with he2 | he2 | he2
                · subst he2
                  exact ⟨Nat.le_refl _, hle⟩
                · exact hws _ _ _ e2 he2
                · exact eih _ e2 he2
            · rw [if_neg hat] at he2
              by_cases hex :
                  fs.existsDir (dir2 ++ [ent.name] ++ ["node_modules"])
              · rw [if_pos hex] at he2
                simp only [List.mem_append] at he2
                rcases he2 with he2 | he2
                · exact ihw _ _ e2 he2
                · exact eih _ e2 he2
              · rw [if_neg hex] at he2
                exact eih _ e2 he2
      rw [walk] at he
      rw [dif_neg hgt] at he
      dsimp only at he
      cases hrd : fs.readdir dir with
      | none =>
        rw [hrd] at he
        dsimp only at he
        simp only [List.mem_singleton] at he
        subst he
        exact ⟨Nat.le_refl _, hle⟩
      | some entries =>
        rw [hrd] at he
        dsimp only at he
        simp only [List.mem_cons] at he
        rcases he with he | he
        · subst he
          exact ⟨Nat.le_refl _, hle⟩
        · exact hwe _ _ _ e he

/-- C8: the walk terminates on every directory structure (it is a total
function of an arbitrary, possibly cyclic, filesystem abstraction): a call
with depth greater than 6 returns immediately without reading any directory,
and every directory read performed by a walk happens at a depth between the
starting depth and 6 — recursion into a nested installed-packages directory
strictly increases the depth — so at most 6 levels of nested
`node_modules` directories below the root are traversed. -/
theorem walk_terminates_depth_bounded :
    (∀ (fs : FS) (dir : List String) (depth : Nat) (hits : Inventory),
        depth > 6 → walk fs dir depth hits = (hits, [])) ∧
    (∀ (fs : FS) (dir : List String) (depth : Nat) (hits : Inventory)
        (e : List String × Nat),
        e ∈ (walk fs dir depth hits).2 → depth ≤ e.2 ∧ e.2 ≤ 6) :=
  ⟨fun fs dir depth hits h => walk_cutoff fs dir depth hits h,
    fun fs dir depth hits e he =>
      walk_log_bound_fuel (7 - depth) depth (Nat.le_refl _) fs dir hits e he⟩

/-- Witness for C8: a depth-7 call returns at once, and the root read of a
depth-0 call is logged at depth 0. -/
theorem walk_terminates_depth_bounded_witness :
    walk ⟨fun _ => some [], fun _ => false, fun _ => none⟩ ["node_modules"] 7
        [] = ([], []) ∧
    (0 ≤ (((["node_modules"] : List String), 0) : List String × Nat).2 ∧
      (((["node_modules"] : List String), 0) : List String × Nat).2 ≤ 6) :=
  ⟨walk_terminates_depth_bounded.1
      ⟨fun _ => some [], fun _ => false, fun _ => none⟩ ["node_modules"] 7 []
      (by decide),
    walk_terminates_depth_bounded.2
      ⟨fun _ => some [], fun _ => false, fun _ => none⟩ ["node_modules"] 0 []
      (["node_modules"], 0)
      (by rw [walk]; simp)⟩


/-! ### C9 and C10 -/

/-- C9 (counterexample): a dot-prefixed child directory inside an
`@`-namespace container is not skipped — its manifest contributes a
(name, version) pair: on `fsHiddenScoped`, whose only manifest lives under
the hidden child `.hidden`, the walk produces a non-empty inventory. -/
theorem walk_hidden_scoped_child_contributes :
    strStartsWith ".hidden" "." = true ∧
    (walk fsHiddenScoped ["node_modules"] 0 []).1 =
      [("hidden-pkg", ["1.0.0"])] := by
  constructor
  · decide
  · simp [walk, walkEntries, walkScoped, processPkg, fsHiddenScoped, add,
      setAdd, strStartsWith, JVal.toStr]

/-- C9 (amended): the main traversal loop skips every non-directory entry
and every entry whose name starts with a dot, and the namespace-container
loop skips non-directory children — but it does not filter dot-prefixed
child names, so a hidden child directory of an `@`-container can still
contribute a pair. -/
theorem walk_skips_hidden_in_main_loop_only :
    (∀ (fs : FS) (dir : List String) (depth : Nat) (ent : FSEnt)
        (rest : List FSEnt) (hits : Inventory) (h : depth ≤ 6),
        (ent.isDir = false ∨ strStartsWith ent.name "." = true) →
        walkEntries fs dir depth (ent :: rest) hits h =
          walkEntries fs dir depth rest hits h) ∧
    (∀ (fs : FS) (sd : List String) (depth : Nat) (s : FSEnt)
        (rest : List FSEnt) (hits : Inventory) (h : depth ≤ 6),
        s.isDir = false →
        walkScoped fs sd depth (s :: rest) hits h =
          walkScoped fs sd depth rest hits h) := by
  constructor
  · intro fs dir depth ent rest hits h hcond
    have hb : (!ent.isDir || strStartsWith ent.name ".") = true := by
      rcases hcond with hc | hc <;> simp [hc]
    rw [walkEntries, if_pos hb]
  · intro fs sd depth s rest hits h hc
    have hb : (!s.isDir) = true := by simp [hc]
    rw [walkScoped, if_pos hb]

/-- Witness for the amended C9 on concrete entries. -/
theorem walk_skips_hidden_in_main_loop_only_witness :
    walkEntries fsHiddenScoped ["node_modules"] 0 [⟨".hidden", true⟩] []
        (by decide) =
      walkEntries fsHiddenScoped ["node_modules"] 0 [] [] (by decide) ∧
    walkScoped fsHiddenScoped ["node_modules", "@scope"] 0
        [⟨"file.txt", false⟩] [] (by decide) =
      walkScoped fsHiddenScoped ["node_modules", "@scope"] 0 [] []
        (by decide) :=
  ⟨walk_skips_hidden_in_main_loop_only.1 fsHiddenScoped ["node_modules"] 0
      ⟨".hidden", true⟩ [] [] (by decide) (Or.inr (by decide)),
    walk_skips_hidden_in_main_loop_only.2 fsHiddenScoped
      ["node_modules", "@scope"] 0 ⟨"file.txt", false⟩ [] [] (by decide) rfl⟩

theorem collectFlat_cons (p : String × Option JVal)
    (pkgs : List (String × Option JVal)) (hits : Inventory) :
    collectFromPackageLockFlat (p :: pkgs) hits =
      collectFromPackageLockFlat pkgs
        (match p.2 with
         | none => hits
         | some v =>
           if v.truthy then add hits (stripNodeModules p.1) v else hits) :=
  rfl

theorem invMem_collectFlat (pkgs : List (String × Option JVal))
    (hits : Inventory) (n v : String) :
    invMem (collectFromPackageLockFlat pkgs hits) n v ↔
      invMem hits n v ∨
        ∃ p ∈ pkgs, ∃ jv, p.2 = some jv ∧ jv.truthy = true ∧
          stripNodeModules p.1 = n ∧ jv.toStr = v := by
  induction pkgs generalizing hits with
  | nil => simp [collectFromPackageLockFlat]
  | cons p rest ih =>
    rw [collectFlat_cons]
    cases hp2 : p.2 with
    | none =>
      simp only [hp2]
      rw [ih]
      constructor
      · rintro (hm | hrest)
        · exact Or.inl hm
        · exact Or.inr (by
            obtain ⟨q, hq, rest2⟩ := hrest
            exact ⟨q, List.mem_cons_of_mem _ hq, rest2⟩)
      · rintro (hm | ⟨q, hq, jv, hjv, hrest2⟩)
        · exact Or.inl hm
        · rcases List.mem_cons.mp hq with rfl | hq
          · rw [hp2] at hjv
            cases hjv
          · exact Or.inr ⟨q, hq, jv, hjv, hrest2⟩
    | some jv =>
      by_cases htr : jv.truthy = true
      · simp only [hp2, htr, if_true]
        rw [ih, invMem_add]
        constructor
        · rintro ((hm | ⟨hn, hveq⟩) | hrest)
          · exact Or.inl hm
          · exact Or.inr ⟨p, List.mem_cons_self _ _, jv, hp2, htr,
              hn.symm, hveq.symm⟩
          · obtain ⟨q, hq, rest2⟩ := hrest
            exact Or.inr ⟨q, List.mem_cons_of_mem _ hq, rest2⟩
        · rintro (hm | ⟨q, hq, jv2, hjv2, htr2, hsn, hsv⟩)
          · exact Or.inl (Or.inl hm)
          · rcases List.mem_cons.mp hq with rfl | hq
            · rw [hp2] at hjv2
              injection hjv2 with e
              subst e
              exact Or.inl (Or.inr ⟨hsn.symm, hsv.symm⟩)
            · exact Or.inr ⟨q, hq, jv2, hjv2, htr2, hsn, hsv⟩
      · simp only [hp2, htr, if_false]
        rw [ih]
        constructor
        · rintro (hm | hrest)
          · exact Or.inl hm
          · obtain ⟨q, hq, rest2⟩ := hrest
            exact Or.inr ⟨q, List.mem_cons_of_mem _ hq, rest2⟩
        · rintro (hm | ⟨q, hq, jv2, hjv2, htr2, hrest2⟩)
          · exact Or.inl hm
          · rcases List.mem_cons.mp hq with rfl | hq
            · rw [hp2] at hjv2
              injection hjv2 with e
              subst e
              exact absurd htr2 htr
            · exact Or.inr ⟨q, hq, jv2, hjv2, htr2, hrest2⟩

/-- C10: the flat-map branch inventories each record carrying a (truthy)
version under its key with exactly one leading `node_modules/` prefix
removed and the key otherwise unchanged: the empty-string root key stays the
empty string, and `node_modules/a/node_modules/b` becomes
`a/node_modules/b`, not the bare leaf `b`. -/
theorem collectFromPackageLockFlat_strips_one_prefix_only :
    (∀ (pkgs : List (String × Option JVal)) (hits : Inventory)
        (n v : String),
        invMem (collectFromPackageLockFlat pkgs hits) n v ↔
          invMem hits n v ∨
            ∃ p ∈ pkgs, ∃ jv, p.2 = some jv ∧ jv.truthy = true ∧
              stripNodeModules p.1 = n ∧ jv.toStr = v) ∧
    stripNodeModules "" = "" ∧
    stripNodeModules "node_modules/a/node_modules/b" = "a/node_modules/b" ∧
    ("a/node_modules/b" : String) ≠ "b" ∧
    collectFromPackageLockFlat [("", some (JVal.str "1.0.0"))] [] =
      [("", ["1.0.0"])] := by
  refine ⟨invMem_collectFlat, by decide, by decide, by decide, by decide⟩


end NpmCheck
